import Mathlib

/-!
Verification of the AnaFlow multi-disk Laplace-space GRF solver
(`anaflow/flow/laplace.py`, function `grf_laplace`).

The Python function orchestrates external numerical routines:
`scipy.special.kv`/`iv` (modified Bessel functions), `scipy.special.gamma`,
`numpy.sqrt` and float powers, `pentapy.solve` (banded solver) and
`anaflow.tools.special.sph_surf`.  Those externals are modelled as
parameters, collected in a `NumEnv` record of abstract functions over `ℚ`;
the repository's own control flow, system assembly, conditioning guard,
coefficient handling and head evaluation are embedded faithfully.

`numpy.linalg.solve` on the 2x2 block is modelled exactly (Cramer), with
`none` standing for the `LinAlgError` raised on a singular matrix.
`pentapy.solve` is an abstract parameter returning `Option (List ℚ)`:
`none` models a numerically singular solve whose NaN output is zeroed by
the subsequent `np.nan_to_num(X)`.

Boundary radii may be `np.inf`, so they live in the extended type `ERad`.
-/

namespace Anaflow

/-- Extended radius value: a rational or `np.inf` (unbounded aquifer). -/
inductive ERad where
  | val (q : ℚ)
  | inf
  deriving DecidableEq

/-- Strict order on extended radii, as NumPy compares floats with `inf`. -/
def ERad.Lt : ERad → ERad → Prop
  | .val a, .val b => a < b
  | .val _, .inf => True
  | .inf, _ => False

instance : LT ERad := ⟨ERad.Lt⟩

def ERad.decLt : (a b : ERad) → Decidable (ERad.Lt a b)
  | .val a, .val b => inferInstanceAs (Decidable (a < b))
  | .val _, .inf => .isTrue trivial
  | .inf, .val _ => .isFalse (fun h => h)
  | .inf, .inf => .isFalse (fun h => h)

instance (a b : ERad) : Decidable (a < b) := ERad.decLt a b

@[simp] theorem ERad.val_lt_val {a b : ℚ} :
    (ERad.val a < ERad.val b) ↔ a < b := Iff.rfl

@[simp] theorem ERad.val_lt_inf {a : ℚ} : ERad.val a < ERad.inf := trivial

@[simp] theorem ERad.not_inf_lt {a : ERad} : ¬(ERad.inf < a) := fun h => h

/-- The rational carried by a finite extended radius (all uses in the
    embedding are guarded by finiteness checks of the source). -/
def ERad.q : ERad → ℚ
  | .val a => a
  | .inf => 0

/-- The external numerical routines used by `grf_laplace`, as abstract
    functions over `ℚ`.  `kv`/`iv` take the order and the argument, as
    `scipy.special.kv(nu, x)` / `iv(nu, x)` do. -/
structure NumEnv where
  sqrt : ℚ → ℚ
  rpow : ℚ → ℚ → ℚ
  kv : ℚ → ℚ → ℚ
  iv : ℚ → ℚ → ℚ
  gammaF : ℚ → ℚ
  sphSurf : ℚ → ℚ
  psolve : List (List ℚ) → List ℚ → Option (List ℚ)

/-- Python-level failures of `grf_laplace`: the `ValueError`s of the
    validation block, the `IndexError` from `K_part[0]` on an empty array,
    the `ValueError` from `np.min`/`np.max` on an empty `rad`, and the
    uncaught `LinAlgError` of the single-disk path. -/
inductive Err where
  | lenMismatch
  | negWellRadius
  | unsorted
  | radRange
  | nonPosK
  | nonPosS
  | badDim
  | badLatExt
  | badKwell
  | indexError
  | numpyReduceError
  | linAlgError
  deriving DecidableEq

/-- `get_bessel(nu)`: the four modified-Bessel evaluators
    `kv(nu, .), kv(nu-1, .), iv(nu, .), iv(nu-1, .)`. -/
def get_bessel (env : NumEnv) (nu : ℚ) :
    (ℚ → ℚ) × (ℚ → ℚ) × (ℚ → ℚ) × (ℚ → ℚ) :=
  (fun x => env.kv nu x, fun x => env.kv (nu - 1) x,
   fun x => env.iv nu x, fun x => env.iv (nu - 1) x)

def kv0 (env : NumEnv) (nu : ℚ) (x : ℚ) : ℚ := env.kv nu x

def kv1 (env : NumEnv) (nu : ℚ) (x : ℚ) : ℚ := env.kv (nu - 1) x

def iv0 (env : NumEnv) (nu : ℚ) (x : ℚ) : ℚ := env.iv nu x

def iv1 (env : NumEnv) (nu : ℚ) (x : ℚ) : ℚ := env.iv (nu - 1) x

theorem get_bessel_eq (env : NumEnv) (nu : ℚ) :
    get_bessel env nu = (kv0 env nu, kv1 env nu, iv0 env nu, iv1 env nu) := rfl

/-- `K_well = K_part[0] if K_well is None else float(K_well)`;
    `none` output models the `IndexError` on an empty `K_part`. -/
def resolveKw (K_well : Option ℚ) (K_part : List ℚ) : Option ℚ :=
  match K_well with
  | some k => some k
  | none => K_part.head?

/-- The validation block of `grf_laplace`, checks in source order.
    `none` means all checks pass. -/
def validate (rad S_part K_part : List ℚ) (R_part : List ERad)
    (dim lat_ext kw : ℚ) : Option Err :=
  if ¬((R_part.length : ℤ) - 1 = S_part.length ∧
      S_part.length = K_part.length ∧ 0 < K_part.length) then
    some .lenMismatch
  else if R_part.headD (ERad.val 0) < ERad.val 0 then
    some .negWellRadius
  else if ¬(∀ p ∈ R_part.zip R_part.tail, p.1 < p.2) then
    some .unsorted
  else
    match rad.min?, rad.max? with
    | some mn, some mx =>
      if ¬(R_part.headD (ERad.val 0) < ERad.val mn) ∨
          R_part.getLastD ERad.inf < ERad.val mx then
        some .radRange
      else if ¬(∀ con ∈ K_part, 0 < con) then some .nonPosK
      else if ¬(∀ stor ∈ S_part, 0 < stor) then some .nonPosS
      else if ¬(0 < dim) ∨ 3 < dim then some .badDim
      else if ¬(0 < lat_ext) then some .badLatExt
      else if ¬(0 < kw) then some .badKwell
      else none
    | _, _ => some .numpyReduceError

/-- The pumping condition `Qs` as a function of the transform variable. -/
def QsOf (env : NumEnv) (nu diff_sr0 : ℚ) (R0 : ERad) (se : ℚ) : ℚ :=
  if ERad.val 0 < R0 then
    -(env.rpow se (-(3 : ℚ) / 2)) / diff_sr0 * env.rpow R0.q (nu - 1)
  else
    env.rpow (2 / diff_sr0) nu / env.gammaF (1 - nu) *
      env.rpow se (-nu / 2 - 1)

/-- Exact 2x2 linear solve, modelling `np.linalg.solve` on the 2x2 system;
    `none` models the `LinAlgError` raised on a singular matrix. -/
def solve2 (m00 m01 m10 m11 v0 v1 : ℚ) : Option (ℚ × ℚ) :=
  let det := m00 * m11 - m01 * m10
  if det = 0 then none
  else some ((v0 * m11 - m01 * v1) / det, (m00 * v1 - m10 * v0) / det)

/-- Single-disk 2x2 matrix: `np.eye(2)` updated by the boundary conditions
    in source order. -/
def singleM (env : NumEnv) (nu : ℚ) (R0 Rl : ERad) (Cs : ℚ) :
    ℚ × ℚ × ℚ × ℚ :=
  let m00 : ℚ := 1
  let m01 : ℚ := 0
  let m10 : ℚ := 0
  let m11 : ℚ := 1
  let p0 : ℚ × ℚ :=
    if ERad.val 0 < R0 then
      (-(kv1 env nu (Cs * R0.q)), iv1 env nu (Cs * R0.q))
    else (m00, m01)
  if Rl < ERad.inf then
    (p0.1, p0.2, kv0 env nu (Cs * Rl.q), iv0 env nu (Cs * Rl.q))
  else (p0.1, 0, m10, m11)

/-- One transform variable of the homogeneous (`parts == 1`) path:
    solve the 2x2 system, then evaluate the head at every radius strictly
    below the outer boundary (other entries stay at their `np.zeros`
    initialisation). -/
def singleRow (env : NumEnv) (nu : ℚ) (R0 Rl : ERad) (diff_sr0 : ℚ)
    (rad : List ℚ) (qs se : ℚ) : Except Err (List ℚ) :=
  let Cs := env.sqrt se * diff_sr0
  let m := singleM env nu R0 Rl Cs
  match solve2 m.1 m.2.1 m.2.2.1 m.2.2.2 qs 0 with
  | none => .error .linAlgError
  | some ab =>
    .ok (rad.map (fun re =>
      if ERad.val re < Rl then
        env.rpow re nu *
          (ab.1 * kv0 env nu (Cs * re) + ab.2 * iv0 env nu (Cs * re))
      else 0))

/-- Sequential evaluation over the transform variables; an exception at one
    variable aborts the whole call, as in Python. -/
def mapRows (f : ℚ → Except Err (List ℚ)) : List ℚ → Except Err (List (List ℚ))
  | [] => .ok []
  | se :: rest =>
    match f se with
    | .error e => .error e
    | .ok row =>
      match mapRows f rest with
      | .error e => .error e
      | .ok rows => .ok (row :: rows)

/-- `res *= rate / (K_well * sph_surf(dim) * lat_ext ** (3.0 - dim))`. -/
def scaleRes (fac : ℚ) (rows : List (List ℚ)) : List (List ℚ) :=
  rows.map (List.map (fun x => x * fac))

/-! ### The multi-disk (`parts > 1`) path -/

/-- Context of a multi-disk run: the validated inputs and the derived
    per-disk quantities of the source (`Kfrac`, `difsr`, `tmp`, `Cs`). -/
structure MCtx where
  env : NumEnv
  nu : ℚ
  parts : ℕ
  R_part : List ERad
  K_part : List ℚ
  S_part : List ℚ
  cut : ℚ
  rad : List ℚ

/-- `difsr = np.sqrt(S_part / K_part)`, elementwise. -/
def MCtx.difsr (c : MCtx) (i : ℕ) : ℚ :=
  c.env.sqrt (c.S_part.getD i 0 / c.K_part.getD i 0)

/-- `Kfrac = K_part[:-1] / K_part[1:]`, elementwise. -/
def MCtx.Kfrac (c : MCtx) (i : ℕ) : ℚ :=
  c.K_part.getD i 0 / c.K_part.getD (i + 1) 0

/-- `tmp = Kfrac * difsr[:-1] / difsr[1:]` (mass-conservation factor). -/
def MCtx.tmp (c : MCtx) (i : ℕ) : ℚ := c.Kfrac i * c.difsr i / c.difsr (i + 1)

def MCtx.R (c : MCtx) (i : ℕ) : ERad := c.R_part.getD i ERad.inf

def MCtx.Rq (c : MCtx) (i : ℕ) : ℚ := (c.R i).q

/-- `Cs = np.sqrt(se) * difsr`, elementwise. -/
def MCtx.Cs (c : MCtx) (se : ℚ) (i : ℕ) : ℚ := c.env.sqrt se * c.difsr i

/-- `pos = np.searchsorted(R_part, rad) - 1`: the disk index of a radius. -/
def MCtx.pos (c : MCtx) (r : ℚ) : ℕ :=
  (c.R_part.countP (fun R => decide (R < ERad.val r))) - 1

/-- Point update of a matrix-as-function workspace. -/
def mset (M : ℕ → ℕ → ℚ) (r cidx : ℕ) (v : ℚ) : ℕ → ℕ → ℚ :=
  fun r' c' => if r' = r ∧ c' = cidx then v else M r' c'

/-- Point update of a vector-as-function workspace. -/
def vset (V : ℕ → ℚ) (j : ℕ) (v : ℚ) : ℕ → ℚ :=
  fun j' => if j' = j then v else V j'

/-- Apply a list of banded-matrix writes in order (later writes win). -/
def applyWrites : List ((ℕ × ℕ) × ℚ) → (ℕ → ℕ → ℚ) → (ℕ → ℕ → ℚ)
  | [], M => M
  | (a, v) :: ws, M => applyWrites ws (mset M a.1 a.2 v)

/-- `Mb = np.zeros((5, 2*parts))` with the standard boundary conditions
    `Mb[2, 0] = 1.0`, `Mb[2, -1] = 1.0` set before the loop. -/
def MInit (parts : ℕ) : ℕ → ℕ → ℚ :=
  fun r cidx => if r = 2 ∧ (cidx = 0 ∨ cidx = 2 * parts - 1) then 1 else 0

/-- The writes of one interior-interface block of the banded system
    (loop body `for i in range(parts - 1)`), in source order. -/
def loopWrites (c : MCtx) (se : ℚ) (i : ℕ) : List ((ℕ × ℕ) × ℚ) :=
  [ ((0, 2 * i + 3), -(iv0 c.env c.nu (c.Cs se (i + 1) * c.Rq (i + 1)))),
    ((1, 2 * i + 2), -(kv0 c.env c.nu (c.Cs se (i + 1) * c.Rq (i + 1)))),
    ((1, 2 * i + 3), -(iv1 c.env c.nu (c.Cs se (i + 1) * c.Rq (i + 1)))),
    ((2, 2 * i + 1), iv0 c.env c.nu (c.Cs se i * c.Rq (i + 1))),
    ((2, 2 * i + 2), kv1 c.env c.nu (c.Cs se (i + 1) * c.Rq (i + 1))),
    ((3, 2 * i), kv0 c.env c.nu (c.Cs se i * c.Rq (i + 1))),
    ((3, 2 * i + 1), c.tmp i * iv1 c.env c.nu (c.Cs se i * c.Rq (i + 1))),
    ((4, 2 * i), -(c.tmp i) * kv1 c.env c.nu (c.Cs se i * c.Rq (i + 1))) ]

/-- The conditional boundary writes after the assembly loop:
    well condition if `R_part[0] > 0`, outer condition if `R_part[-1]`
    finite, else erasure of the last column's upper entries. -/
def boundaryWrites (c : MCtx) (se : ℚ) : List ((ℕ × ℕ) × ℚ) :=
  (if ERad.val 0 < c.R 0 then
    [ ((2, 0), -(kv1 c.env c.nu (c.Cs se 0 * c.Rq 0))),
      ((1, 1), iv1 c.env c.nu (c.Cs se 0 * c.Rq 0)) ]
   else []) ++
  (if c.R c.parts < ERad.inf then
    [ ((3, 2 * c.parts - 2),
        kv0 c.env c.nu (c.Cs se (c.parts - 1) * c.Rq c.parts)),
      ((2, 2 * c.parts - 1),
        iv0 c.env c.nu (c.Cs se (c.parts - 1) * c.Rq c.parts)) ]
   else
    [ ((0, 2 * c.parts - 1), 0),
      ((1, 2 * c.parts - 1), 0) ])

/-- All writes of one iteration's system assembly, in source order. -/
def allWrites (c : MCtx) (se : ℚ) : List ((ℕ × ℕ) × ℚ) :=
  ((List.range (c.parts - 1)).flatMap (loopWrites c se)) ++ boundaryWrites c se

/-- One iteration's assembled banded matrix, starting from workspace `M`. -/
def assembleM (c : MCtx) (se : ℚ) (M : ℕ → ℕ → ℚ) : ℕ → ℕ → ℚ :=
  applyWrites (allWrites c se) M

/-- `Mb_cond = np.max(np.abs(Mb), axis=0)`: column maximum of absolute
    values over the five band rows. -/
def colMax (M : ℕ → ℕ → ℚ) (cidx : ℕ) : ℚ :=
  (List.range 5).foldr (fun r acc => max |M r cidx| acc) 0

/-- A column crosses the conditioning threshold:
    `Mb_cond < cut_off_prec` or `Mb_cond > 1 / cut_off_prec`. -/
def colCross (cut : ℚ) (M : ℕ → ℕ → ℚ) (cidx : ℕ) : Bool :=
  decide (colMax M cidx < cut) || decide (1 / cut < colMax M cidx)

/-- `first = cond[0] // 2 if found else parts`: disk index of the first
    crossing column, or `parts` when no column crosses. -/
def firstIdx (cut : ℚ) (parts : ℕ) (M : ℕ → ℕ → ℚ) : ℕ :=
  match (List.range (2 * parts)).find? (fun cidx => colCross cut M cidx) with
  | some cidx => cidx / 2
  | none => parts

/-- The in-place zeroing through the truncated view `M_sgl = Mb[:, :2*first]`:
    `M_sgl[-1, -1] = 0; M_sgl[-2, -1] = 0; M_sgl[-1, -2] = 0`. -/
def truncZero (M : ℕ → ℕ → ℚ) (f : ℕ) : ℕ → ℕ → ℚ :=
  mset (mset (mset M 4 (2 * f - 1) 0) 3 (2 * f - 1) 0) 4 (2 * f - 2) 0

/-- The flat banded matrix (5 rows, `w` columns) handed to `pentapy.solve`
    with `is_flat=True, index_row_wise=False`. -/
def bandRows (M : ℕ → ℕ → ℚ) (w : ℕ) : List (List ℚ) :=
  (List.range 5).map (fun r => (List.range w).map (fun cidx => M r cidx))

/-- Head evaluation of one result entry: coefficient contributions below
    `cut_off_prec` in absolute value are masked to zero. -/
def headAt (c : MCtx) (se : ℚ) (X : ℕ → ℚ) (re : ℚ) : ℚ :=
  let p := c.pos re
  let k0s := if |X (2 * p)| < c.cut then 0
             else X (2 * p) * kv0 c.env c.nu (c.Cs se p * re)
  let i0s := if |X (2 * p + 1)| < c.cut then 0
             else X (2 * p + 1) * iv0 c.env c.nu (c.Cs se p * re)
  c.env.rpow re c.nu * (k0s + i0s)

/-- `res[si, :] = rad ** nu * (k0_sub + i0_sub)` with the masking applied. -/
def rowEval (c : MCtx) (se : ℚ) (X : ℕ → ℚ) : List ℚ :=
  c.rad.map (headAt c se X)

/-- The mutable workspaces reused across transform-variable iterations. -/
structure GrfState where
  Mb : ℕ → ℕ → ℚ
  V : ℕ → ℚ
  X : ℕ → ℚ

/-- The coefficient vector produced by one iteration from the assembled
    matrix `A`, right-hand side `V1`, truncation index `f` and the
    workspace `X1` (already zeroed at `X1[2*f:]`).  `first <= 1`: direct
    2x2 solve of the innermost block with `np.linalg.solve`, zeros on
    `LinAlgError`; otherwise `pentapy.solve` on the truncated band, a
    wholly singular (NaN) solve yielding zeros after `np.nan_to_num(X)`. -/
def solveX (c : MCtx) (A : ℕ → ℕ → ℚ) (V1 : ℕ → ℚ) (f : ℕ)
    (X1 : ℕ → ℚ) : ℕ → ℚ :=
  if f ≤ 1 then
    match solve2 (A 2 0) (A 1 1) (A 3 0) (A 2 1) (V1 0) (V1 1) with
    | some p => fun j => if j = 0 then p.1 else if j = 1 then p.2 else X1 j
    | none => fun j => if j < 2 then 0 else X1 j
  else
    let A2 := if f < c.parts then truncZero A f else A
    match c.env.psolve (bandRows A2 (2 * f)) ((List.range (2 * f)).map V1) with
    | some l => fun j => if j < 2 * f then l.getD j 0 else X1 j
    | none => fun j => if j < 2 * f then 0 else X1 j

/-- The `Mb` workspace left behind by one iteration: in the truncated
    branch the view `M_sgl = Mb[:, :2*first]` has been mutated in place. -/
def nextMb (c : MCtx) (A : ℕ → ℕ → ℚ) (f : ℕ) : ℕ → ℕ → ℚ :=
  if f ≤ 1 then A else if f < c.parts then truncZero A f else A

/-- One iteration of the transform-variable loop: set `V[0]`, assemble the
    banded system into the `Mb` workspace, run the conditioning guard, zero
    `X[2*first:]`, solve the (possibly truncated) system, and evaluate the
    head row.  Returns the next workspace state and the result row. -/
def grfStep (c : MCtx) (st : GrfState) (se : ℚ) : GrfState × List ℚ :=
  let V1 := vset st.V 0 (QsOf c.env c.nu (c.difsr 0) (c.R 0) se)
  let A := assembleM c se st.Mb
  let f := firstIdx c.cut c.parts A
  let X1 : ℕ → ℚ := fun j => if 2 * f ≤ j then 0 else st.X j
  let X2 := solveX c A V1 f X1
  (⟨nextMb c A f, V1, X2⟩, rowEval c se X2)

/-- The transform-variable loop, threading the reused workspaces. -/
def runLoop (c : MCtx) (st : GrfState) : List ℚ → List (List ℚ)
  | [] => []
  | se :: rest =>
    let pr := grfStep c st se
    pr.2 :: runLoop c pr.1 rest

/-- Initial workspace state: `V = np.zeros(2*parts)`, `X = np.zeros(2*parts)`
    and `Mb` as in `MInit`. -/
def initState (parts : ℕ) : GrfState :=
  ⟨MInit parts, fun _ => 0, fun _ => 0⟩

/-- The embedded `grf_laplace`.  All external numerics come from `env`;
    everything else follows `anaflow/flow/laplace.py` line by line. -/
def grf_laplace (env : NumEnv) (s rad S_part K_part : List ℚ)
    (R_part : List ERad) (dim lat_ext rate : ℚ) (K_well : Option ℚ)
    (cut_off_prec : ℚ) : Except Err (List (List ℚ)) :=
  let nu := 1 - dim / 2
  let parts := K_part.length
  match resolveKw K_well K_part with
  | none => .error .indexError
  | some kw =>
    match validate rad S_part K_part R_part dim lat_ext kw with
    | some e => .error e
    | none =>
      let diff_sr0 := env.sqrt (S_part.getD 0 0 / K_part.getD 0 0)
      let R0 := R_part.headD (ERad.val 0)
      let Rl := R_part.getLastD ERad.inf
      let fac := rate / (kw * env.sphSurf dim * env.rpow lat_ext (3 - dim))
      if parts = 1 then
        match mapRows
            (fun se => singleRow env nu R0 Rl diff_sr0 rad
              (QsOf env nu diff_sr0 R0 se) se) s with
        | .error e => .error e
        | .ok rows => .ok (scaleRes fac rows)
      else
        let c : MCtx :=
          ⟨env, nu, parts, R_part, K_part, S_part, cut_off_prec, rad⟩
        .ok (scaleRes fac (runLoop c (initState parts) s))

/-! ### Per-variable pure values and workspace-reuse analysis -/

/-- The banded matrix of one transform variable, assembled over a fresh
    (initial) workspace. -/
def pureMb (c : MCtx) (se : ℚ) : ℕ → ℕ → ℚ :=
  assembleM c se (MInit c.parts)

/-- The truncation index of the condition guard for one transform
    variable. -/
def pureFirst (c : MCtx) (se : ℚ) : ℕ :=
  firstIdx c.cut c.parts (pureMb c se)

/-- The coefficient vector of one transform variable over a fresh
    workspace. -/
def pureX (c : MCtx) (se : ℚ) : ℕ → ℚ :=
  ((grfStep c (initState c.parts) se).1).X

/-- The (unscaled) result row of one transform variable over a fresh
    workspace. -/
def pureRow (c : MCtx) (se : ℚ) : List ℚ :=
  (grfStep c (initState c.parts) se).2

theorem pureRow_eq (c : MCtx) (se : ℚ) :
    pureRow c se = rowEval c se (pureX c se) := rfl

/-- Value of the last write to a given cell in a write list, if any. -/
def lastVal (r cidx : ℕ) : List ((ℕ × ℕ) × ℚ) → Option ℚ
  | [] => none
  | w :: ws =>
    match lastVal r cidx ws with
    | some v => some v
    | none => if w.1 = (r, cidx) then some w.2 else none

theorem applyWrites_apply (ws : List ((ℕ × ℕ) × ℚ)) (M : ℕ → ℕ → ℚ)
    (r cidx : ℕ) :
    applyWrites ws M r cidx = (lastVal r cidx ws).getD (M r cidx) := by
  induction ws generalizing M with
  | nil => rfl
  | cons w ws ih =>
    obtain ⟨a, v⟩ := w
    show applyWrites ws (mset M a.1 a.2 v) r cidx = _
    rw [ih]
    cases h : lastVal r cidx ws with
    | some u => simp [lastVal, h]
    | none =>
      simp only [lastVal, h]
      by_cases ha : a = (r, cidx)
      · cases ha
        simp [mset]
      · have : ¬(r = a.1 ∧ cidx = a.2) := by
          intro hc
          exact ha (Prod.ext hc.1.symm hc.2.symm)
        simp [mset, this, ha]

theorem lastVal_eq_none_iff (r cidx : ℕ) (ws : List ((ℕ × ℕ) × ℚ)) :
    lastVal r cidx ws = none ↔ ∀ w ∈ ws, w.1 ≠ (r, cidx) := by
  induction ws with
  | nil => simp [lastVal]
  | cons w ws ih =>
    cases h : lastVal r cidx ws with
    | some u =>
      simp only [lastVal, h]
      constructor
      · intro hc
        exact absurd hc (by simp)
      · intro hall
        exact absurd h (by
          rw [ih.2 (fun x hx => hall x (List.mem_cons_of_mem _ hx))]
          simp)
    | none =>
      simp only [lastVal, h]
      constructor
      · intro hc
        intro x hx
        rcases List.mem_cons.1 hx with hx1 | hx2
        · subst hx1
          intro hw
          rw [if_pos hw] at hc
          exact Option.noConfusion hc
        · exact (ih.1 h) x hx2
      · intro hall
        rw [if_neg (hall w (List.mem_cons_self w ws))]

/-- The write addresses of one iteration do not depend on the transform
    variable. -/
theorem allWrites_map_fst (c : MCtx) (se se' : ℚ) :
    (allWrites c se).map Prod.fst = (allWrites c se').map Prod.fst := by
  simp only [allWrites, List.map_append]
  congr 1
  · have h : ∀ l : List ℕ,
        (l.flatMap (loopWrites c se)).map Prod.fst =
        (l.flatMap (loopWrites c se')).map Prod.fst := by
      intro l
      induction l with
      | nil => rfl
      | cons i l ih =>
        simp only [List.flatMap_cons, List.map_append, ih]
        congr 1
    exact h _
  · by_cases h0 : ERad.val 0 < c.R 0 <;>
      by_cases hl : c.R c.parts < ERad.inf <;>
        simp [boundaryWrites, h0, hl]

/-- The workspace invariant: cells never touched by any iteration's writes
    still hold their initial value. -/
def MbInv (c : MCtx) (M : ℕ → ℕ → ℚ) : Prop :=
  ∀ r cidx, (∀ w ∈ allWrites c 0, w.1 ≠ (r, cidx)) →
    M r cidx = MInit c.parts r cidx

theorem notWritten_transfer (c : MCtx) (se se' : ℚ) (a : ℕ × ℕ)
    (h : ∀ w ∈ allWrites c se, w.1 ≠ a) :
    ∀ w ∈ allWrites c se', w.1 ≠ a := by
  intro w hw
  have hmem : w.1 ∈ (allWrites c se').map Prod.fst := List.mem_map_of_mem _ hw
  rw [allWrites_map_fst c se' se] at hmem
  rcases List.mem_map.1 hmem with ⟨w', hw', he⟩
  rw [← he]
  exact h w' hw'

/-- An unwritten cell keeps its workspace value through assembly. -/
theorem assembleM_unwritten (c : MCtx) (se : ℚ) (M : ℕ → ℕ → ℚ)
    (r cidx : ℕ) (hw : ∀ w ∈ allWrites c 0, w.1 ≠ (r, cidx)) :
    assembleM c se M r cidx = M r cidx := by
  rw [assembleM, applyWrites_apply,
    (lastVal_eq_none_iff r cidx _).2 (notWritten_transfer c 0 se _ hw)]
  rfl

/-- Assembly over any invariant-satisfying workspace equals assembly over a
    fresh workspace: every cell is either rewritten this iteration or still
    initial. -/
theorem assembleM_eq (c : MCtx) (se : ℚ) (M : ℕ → ℕ → ℚ)
    (hM : MbInv c M) :
    assembleM c se M = assembleM c se (MInit c.parts) := by
  funext r cidx
  rw [assembleM, assembleM, applyWrites_apply, applyWrites_apply]
  cases h : lastVal r cidx (allWrites c se) with
  | some v => rfl
  | none =>
    simp [hM r cidx
      (notWritten_transfer c se 0 _ ((lastVal_eq_none_iff r cidx _).1 h))]

theorem solveX_ext (c : MCtx) (A : ℕ → ℕ → ℚ) (V1 : ℕ → ℚ) (f : ℕ)
    (X1 Y1 : ℕ → ℚ) (h : ∀ j, 2 * f ≤ j → X1 j = Y1 j) :
    solveX c A V1 f X1 = solveX c A V1 f Y1 := by
  funext j
  unfold solveX
  by_cases hf : f ≤ 1
  · simp only [if_pos hf]
    cases solve2 (A 2 0) (A 1 1) (A 3 0) (A 2 1) (V1 0) (V1 1) with
    | some p =>
      by_cases h0 : j = 0
      · simp [h0]
      · by_cases h1 : j = 1
        · simp [h0, h1]
        · have hj : 2 * f ≤ j := by omega
          simp [h0, h1, h j hj]
    | none =>
      by_cases h2 : j < 2
      · simp [h2]
      · have hj : 2 * f ≤ j := by omega
        simp [h2, h j hj]
  · simp only [if_neg hf]
    cases c.env.psolve
        (bandRows (if f < c.parts then truncZero A f else A) (2 * f))
        ((List.range (2 * f)).map V1) with
    | some l =>
      by_cases h2 : j < 2 * f
      · simp [h2]
      · have hj : 2 * f ≤ j := by omega
        simp [h2, h j hj]
    | none =>
      by_cases h2 : j < 2 * f
      · simp [h2]
      · have hj : 2 * f ≤ j := by omega
        simp [h2, h j hj]

/-- One loop iteration over any invariant-satisfying workspace state
    produces the fresh-workspace row, and re-establishes the invariant. -/
theorem grfStep_eq (c : MCtx) (st : GrfState) (se : ℚ)
    (hM : MbInv c st.Mb) (hV : ∀ j, j ≠ 0 → st.V j = 0) :
    (grfStep c st se).2 = pureRow c se ∧
    MbInv c (grfStep c st se).1.Mb ∧
    (∀ j, j ≠ 0 → (grfStep c st se).1.V j = 0) := by
  have hA : assembleM c se st.Mb = assembleM c se (MInit c.parts) :=
    assembleM_eq c se st.Mb hM
  have hV1 : vset st.V 0 (QsOf c.env c.nu (c.difsr 0) (c.R 0) se) =
      vset (fun _ => 0) 0 (QsOf c.env c.nu (c.difsr 0) (c.R 0) se) := by
    funext j
    by_cases hj : j = 0 <;> simp [vset, hj, hV]
  have hX2 : ∀ f,
      solveX c (assembleM c se (MInit c.parts))
        (vset (fun _ => 0) 0 (QsOf c.env c.nu (c.difsr 0) (c.R 0) se)) f
        (fun j => if 2 * f ≤ j then 0 else st.X j) =
      solveX c (assembleM c se (MInit c.parts))
        (vset (fun _ => 0) 0 (QsOf c.env c.nu (c.difsr 0) (c.R 0) se)) f
        (fun j => if 2 * f ≤ j then 0 else (initState c.parts).X j) := by
    intro f
    apply solveX_ext
    intro j hj
    simp [hj]
  refine ⟨?_, ?_, ?_⟩
  · have hL : (grfStep c st se).2 =
        rowEval c se (solveX c (assembleM c se st.Mb)
          (vset st.V 0 (QsOf c.env c.nu (c.difsr 0) (c.R 0) se))
          (firstIdx c.cut c.parts (assembleM c se st.Mb))
          (fun j => if 2 * firstIdx c.cut c.parts (assembleM c se st.Mb) ≤ j
                    then 0 else st.X j)) := rfl
    have hR : pureRow c se =
        rowEval c se (solveX c (assembleM c se (MInit c.parts))
          (vset (fun _ => 0) 0 (QsOf c.env c.nu (c.difsr 0) (c.R 0) se))
          (firstIdx c.cut c.parts (assembleM c se (MInit c.parts)))
          (fun j => if 2 * firstIdx c.cut c.parts
                      (assembleM c se (MInit c.parts)) ≤ j
                    then 0 else (initState c.parts).X j)) := rfl
    rw [hL, hR, hA, hV1,
      hX2 (firstIdx c.cut c.parts (assembleM c se (MInit c.parts)))]
  · have hNext : (grfStep c st se).1.Mb =
        nextMb c (assembleM c se st.Mb)
          (firstIdx c.cut c.parts (assembleM c se st.Mb)) := rfl
    rw [hNext]
    intro r cidx hw
    have hcell : assembleM c se st.Mb r cidx = MInit c.parts r cidx := by
      rw [assembleM_unwritten c se st.Mb r cidx hw]
      exact hM r cidx hw
    unfold nextMb
    by_cases hf : firstIdx c.cut c.parts (assembleM c se st.Mb) ≤ 1
    · rw [if_pos hf]
      exact hcell
    · rw [if_neg hf]
      by_cases hfp : firstIdx c.cut c.parts (assembleM c se st.Mb) < c.parts
      · rw [if_pos hfp]
        unfold truncZero mset
        by_cases h1 : r = 4 ∧ cidx =
            2 * firstIdx c.cut c.parts (assembleM c se st.Mb) - 2
        · simp only [if_pos h1, MInit]
          rw [if_neg]
          intro hc
          omega
        · rw [if_neg h1]
          by_cases h2 : r = 3 ∧ cidx =
              2 * firstIdx c.cut c.parts (assembleM c se st.Mb) - 1
          · simp only [if_pos h2, MInit]
            rw [if_neg]
            intro hc
            omega
          · rw [if_neg h2]
            by_cases h3 : r = 4 ∧ cidx =
                2 * firstIdx c.cut c.parts (assembleM c se st.Mb) - 1
            · simp only [if_pos h3, MInit]
              rw [if_neg]
              intro hc
              omega
            · rw [if_neg h3]
              exact hcell
      · rw [if_neg hfp]
        exact hcell
  · intro j hj
    have : (grfStep c st se).1.V =
        vset st.V 0 (QsOf c.env c.nu (c.difsr 0) (c.R 0) se) := rfl
    rw [this]
    simp [vset, hj, hV j hj]

/-- The transform-variable loop from any invariant-satisfying workspace
    state computes, rowwise, the fresh-workspace rows: workspace reuse
    never leaks between iterations. -/
theorem runLoop_eq (c : MCtx) (s : List ℚ) :
    ∀ st : GrfState, MbInv c st.Mb → (∀ j, j ≠ 0 → st.V j = 0) →
    runLoop c st s = s.map (pureRow c) := by
  induction s with
  | nil => intro st _ _; rfl
  | cons se rest ih =>
    intro st hM hV
    obtain ⟨hrow, hM2, hV2⟩ := grfStep_eq c st se hM hV
    show (grfStep c st se).2 :: runLoop c (grfStep c st se).1 rest = _
    rw [hrow, ih (grfStep c st se).1 hM2 hV2, List.map_cons]

theorem initState_mbInv (c : MCtx) : MbInv c (initState c.parts).Mb :=
  fun _ _ _ => rfl

/-- The multi-disk branch of `grf_laplace` in closed form. -/
theorem grf_laplace_multi (env : NumEnv) (s rad S_part K_part : List ℚ)
    (R_part : List ERad) (dim lat_ext rate : ℚ) (K_well : Option ℚ)
    (cut_off_prec kw : ℚ)
    (hkw : resolveKw K_well K_part = some kw)
    (hval : validate rad S_part K_part R_part dim lat_ext kw = none)
    (hparts : K_part.length ≠ 1) :
    grf_laplace env s rad S_part K_part R_part dim lat_ext rate K_well
        cut_off_prec =
      .ok (scaleRes
        (rate / (kw * env.sphSurf dim * env.rpow lat_ext (3 - dim)))
        (s.map (pureRow ⟨env, 1 - dim / 2, K_part.length, R_part, K_part,
          S_part, cut_off_prec, rad⟩))) := by
  simp only [grf_laplace, hkw, hval, if_neg hparts]
  rw [runLoop_eq _ s (initState K_part.length) (initState_mbInv _)
    (fun _ _ => rfl)]

/-! ### Elementary facts about the embedded pieces -/

theorem min?_spec {l : List ℚ} {a : ℚ} (h : l.min? = some a) :
    a ∈ l ∧ ∀ b ∈ l, a ≤ b := by
  haveI : Std.Antisymm ((· : ℚ) ≤ ·) := ⟨fun h1 h2 => le_antisymm h1 h2⟩
  rw [List.min?_eq_some_iff (fun _ => le_refl _) (fun x y => min_choice x y)
    (fun _ _ _ => le_min_iff)] at h
  exact h

theorem max?_spec {l : List ℚ} {a : ℚ} (h : l.max? = some a) :
    a ∈ l ∧ ∀ b ∈ l, b ≤ a := by
  haveI : Std.Antisymm ((· : ℚ) ≤ ·) := ⟨fun h1 h2 => le_antisymm h1 h2⟩
  rw [List.max?_eq_some_iff (fun _ => le_refl _) (fun x y => max_choice x y)
    (fun _ _ _ => max_le_iff)] at h
  exact h

theorem ERad.lt_val_of_le {R : ERad} {b b' : ℚ} (h : R < ERad.val b)
    (hb : b ≤ b') : R < ERad.val b' := by
  cases R with
  | val a => exact lt_of_lt_of_le h hb
  | inf => exact h

theorem getD_map_of_lt {α β : Type} (f : α → β) (l : List α) (i : ℕ)
    (hi : i < l.length) (d : β) (d0 : α) :
    (l.map f).getD i d = f (l.getD i d0) := by
  rw [List.getD_eq_getElem _ _ (by simpa using hi),
    List.getD_eq_getElem _ _ hi, List.getElem_map]

theorem mapRows_ok_length {f : ℚ → Except Err (List ℚ)} :
    ∀ {s : List ℚ} {rows : List (List ℚ)}, mapRows f s = .ok rows →
      rows.length = s.length := by
  intro s
  induction s with
  | nil =>
    intro rows h
    cases h
    rfl
  | cons se rest ih =>
    intro rows h
    unfold mapRows at h
    cases hf : f se with
    | error e => rw [hf] at h; exact absurd h (by simp)
    | ok row =>
      rw [hf] at h
      cases hm : mapRows f rest with
      | error e => rw [hm] at h; exact absurd h (by simp)
      | ok rows0 =>
        rw [hm] at h
        cases h
        simp [ih hm]

theorem mapRows_ok_getD {f : ℚ → Except Err (List ℚ)} :
    ∀ {s : List ℚ} {rows : List (List ℚ)}, mapRows f s = .ok rows →
      ∀ i < s.length, f (s.getD i 0) = .ok (rows.getD i []) := by
  intro s
  induction s with
  | nil =>
    intro rows h i hi
    exact absurd hi (by simp)
  | cons se rest ih =>
    intro rows h i hi
    unfold mapRows at h
    cases hf : f se with
    | error e => rw [hf] at h; exact absurd h (by simp)
    | ok row =>
      rw [hf] at h
      cases hm : mapRows f rest with
      | error e => rw [hm] at h; exact absurd h (by simp)
      | ok rows0 =>
        rw [hm] at h
        cases h
        cases i with
        | zero => simpa using hf
        | succ i0 =>
          have := ih hm i0 (by simpa using hi)
          simpa using this

theorem mapRows_ok_mem {f : ℚ → Except Err (List ℚ)} :
    ∀ {s : List ℚ} {rows : List (List ℚ)}, mapRows f s = .ok rows →
      ∀ row ∈ rows, ∃ se, f se = .ok row := by
  intro s
  induction s with
  | nil =>
    intro rows h row hr
    cases h
    exact absurd hr (by simp)
  | cons se rest ih =>
    intro rows h row hr
    unfold mapRows at h
    cases hf : f se with
    | error e => rw [hf] at h; exact absurd h (by simp)
    | ok row0 =>
      rw [hf] at h
      cases hm : mapRows f rest with
      | error e => rw [hm] at h; exact absurd h (by simp)
      | ok rows0 =>
        rw [hm] at h
        cases h
        rcases List.mem_cons.1 hr with h1 | h2
        · exact ⟨se, by rw [hf, h1]⟩
        · exact ih hm row h2

theorem mapRows_error {f : ℚ → Except Err (List ℚ)}
    (hf : ∀ se e, f se = .error e → e = .linAlgError) :
    ∀ {s : List ℚ} {e : Err}, mapRows f s = .error e → e = .linAlgError := by
  intro s
  induction s with
  | nil => intro e h; exact absurd h (by simp [mapRows])
  | cons se rest ih =>
    intro e h
    unfold mapRows at h
    cases hfe : f se with
    | error e0 =>
      rw [hfe] at h
      cases h
      exact hf se _ hfe
    | ok row =>
      rw [hfe] at h
      cases hm : mapRows f rest with
      | error e0 =>
        rw [hm] at h
        cases h
        exact ih hm
      | ok rows => rw [hm] at h; exact absurd h (by simp)

theorem singleRow_error {env : NumEnv} {nu : ℚ} {R0 Rl : ERad}
    {diff_sr0 : ℚ} {rad : List ℚ} {qs se : ℚ} {e : Err}
    (h : singleRow env nu R0 Rl diff_sr0 rad qs se = .error e) :
    e = .linAlgError := by
  simp only [singleRow] at h
  split at h
  · cases h
    rfl
  · exact absurd h (by simp)

theorem singleRow_ok_length {env : NumEnv} {nu : ℚ} {R0 Rl : ERad}
    {diff_sr0 : ℚ} {rad : List ℚ} {qs se : ℚ} {row : List ℚ}
    (h : singleRow env nu R0 Rl diff_sr0 rad qs se = .ok row) :
    row.length = rad.length := by
  simp only [singleRow] at h
  split at h
  · exact absurd h (by simp)
  · cases h
    simp

theorem scaleRes_length (fac : ℚ) (rows : List (List ℚ)) :
    (scaleRes fac rows).length = rows.length := by simp [scaleRes]

theorem rowEval_length (c : MCtx) (se : ℚ) (X : ℕ → ℚ) :
    (rowEval c se X).length = c.rad.length := by simp [rowEval]

instance {e a : Type} [DecidableEq e] [DecidableEq a] :
    DecidableEq (Except e a) := fun x y =>
  match x, y with
  | .error u, .error v =>
    if h : u = v then .isTrue (by rw [h])
    else .isFalse (fun hc => h (by injection hc))
  | .ok u, .ok v =>
    if h : u = v then .isTrue (by rw [h])
    else .isFalse (fun hc => h (by injection hc))
  | .error _, .ok _ => .isFalse (fun hc => Except.noConfusion hc)
  | .ok _, .error _ => .isFalse (fun hc => Except.noConfusion hc)

/-- A simple concrete environment for witnesses: every external numeric
    routine returns `1` except the Bessel `kv`, which returns `1/2`, and
    the banded solver, which always reports failure. -/
def env0 : NumEnv :=
  ⟨fun _ => 1, fun _ _ => 1, fun _ _ => 1 / 2, fun _ _ => 1,
   fun _ => 1, fun _ => 1, fun _ _ => none⟩

/-! ### Claim C7: output shape -/

/-- C7: for every input accepted by `grf_laplace` (any number of disks),
    the returned matrix has exactly `len(s)` rows of `len(rad)` entries
    each. -/
theorem claim_C7 (env : NumEnv) (s rad S_part K_part : List ℚ)
    (R_part : List ERad) (dim lat_ext rate : ℚ) (K_well : Option ℚ)
    (cut_off_prec : ℚ) (res : List (List ℚ))
    (h : grf_laplace env s rad S_part K_part R_part dim lat_ext rate K_well
      cut_off_prec = .ok res) :
    res.length = s.length ∧ ∀ row ∈ res, row.length = rad.length := by
  cases hkw : resolveKw K_well K_part with
  | none => simp [grf_laplace, hkw] at h
  | some kw =>
    cases hval : validate rad S_part K_part R_part dim lat_ext kw with
    | some e => simp [grf_laplace, hkw, hval] at h
    | none =>
      by_cases hp : K_part.length = 1
      · simp only [grf_laplace, hkw, hval, if_pos hp] at h
        split at h
        · exact absurd h (by simp)
        · rename_i rows hm
          rw [Except.ok.injEq] at h
          subst h
          constructor
          · rw [scaleRes_length, mapRows_ok_length hm]
          · intro row hr
            rcases List.mem_map.1 hr with ⟨r0, hr0, he⟩
            rcases mapRows_ok_mem hm r0 hr0 with ⟨se, hse⟩
            rw [← he, List.length_map, singleRow_ok_length hse]
      · simp only [grf_laplace, hkw, hval, if_neg hp, Except.ok.injEq] at h
        subst h
        rw [runLoop_eq _ s _ (initState_mbInv _) (fun _ _ => rfl)]
        constructor
        · rw [scaleRes_length, List.length_map]
        · intro row hr
          rcases List.mem_map.1 hr with ⟨r0, hr0, he⟩
          rcases List.mem_map.1 hr0 with ⟨se, _, he2⟩
          rw [← he, List.length_map, ← he2, pureRow_eq, rowEval_length]

theorem claim_C7_witness :
    grf_laplace env0 [1] [2] [1] [1] [ERad.val 1, ERad.val 3] 2 1 1 none 1 =
      .ok [[0]] ∧
    ([[(0 : ℚ)]].length = [(1 : ℚ)].length ∧
      ∀ row ∈ [[(0 : ℚ)]], row.length = [(2 : ℚ)].length) := by
  have hA : grf_laplace env0 [1] [2] [1] [1] [ERad.val 1, ERad.val 3]
      2 1 1 none 1 = .ok [[0]] := by
    norm_num [grf_laplace, resolveKw, validate, mapRows, singleRow, singleM,
      solve2, QsOf, scaleRes, kv0, kv1, iv0, iv1, env0, List.min?, List.max?,
      ERad.q]
  exact ⟨hA,
    claim_C7 env0 [1] [2] [1] [1] [ERad.val 1, ERad.val 3] 2 1 1 none 1
      [[0]] hA⟩

/-! ### Claim C8: length validation and the empty `K_part` slip -/

/-- C8: with the default `K_well=None` and an empty `K_part`, the line
    `K_well = K_part[0] if K_well is None else float(K_well)` runs before
    the length validation and raises an `IndexError`, not the promised
    input-validation `ValueError`; with `K_well` supplied, the same empty
    input does reach the length check and raises the validation error. -/
theorem claim_C8 :
    grf_laplace env0 [1] [1] [] [] [] 2 1 1 none 1 =
      .error Err.indexError ∧
    grf_laplace env0 [1] [1] [] [] [] 2 1 1 (some 1) 1 =
      .error Err.lenMismatch := by
  exact ⟨rfl, rfl⟩

/-! ### Claim C3: the radius-range check -/

/-- C3: with every other validation constraint satisfied and a nonempty
    `rad`, `grf_laplace` fails with the radius input-validation error if
    and only if some requested radius lies outside `(R_0, R_N]`; a radius
    equal to `R_0` is rejected, one equal to `R_N` accepted. -/
theorem claim_C3 (env : NumEnv) (s rad S_part K_part : List ℚ)
    (R_part : List ERad) (dim lat_ext rate : ℚ) (K_well : Option ℚ)
    (cut_off_prec kw : ℚ)
    (hkw : resolveKw K_well K_part = some kw)
    (hlen : (R_part.length : ℤ) - 1 = S_part.length ∧
      S_part.length = K_part.length ∧ 0 < K_part.length)
    (hR0 : ¬(R_part.headD (ERad.val 0) < ERad.val 0))
    (hsort : ∀ p ∈ R_part.zip R_part.tail, p.1 < p.2)
    (hK : ∀ con ∈ K_part, 0 < con) (hS : ∀ stor ∈ S_part, 0 < stor)
    (hdim : 0 < dim ∧ dim ≤ 3) (hlat : 0 < lat_ext) (hkwpos : 0 < kw)
    (hrad : rad ≠ []) :
    grf_laplace env s rad S_part K_part R_part dim lat_ext rate K_well
        cut_off_prec = .error Err.radRange ↔
      ∃ r ∈ rad, ¬(R_part.headD (ERad.val 0) < ERad.val r) ∨
        R_part.getLastD ERad.inf < ERad.val r := by
  obtain ⟨mn, hmn⟩ : ∃ mn, rad.min? = some mn := by
    cases hm : rad.min? with
    | none => exact absurd (List.min?_eq_none_iff.1 hm) hrad
    | some mn => exact ⟨mn, rfl⟩
  obtain ⟨mx, hmx⟩ : ∃ mx, rad.max? = some mx := by
    cases hm : rad.max? with
    | none => exact absurd (List.max?_eq_none_iff.1 hm) hrad
    | some mx => exact ⟨mx, rfl⟩
  have hvali : validate rad S_part K_part R_part dim lat_ext kw =
      if ¬(R_part.headD (ERad.val 0) < ERad.val mn) ∨
          R_part.getLastD ERad.inf < ERad.val mx then some Err.radRange
      else none := by
    simp only [validate, if_neg (not_not_intro hlen), if_neg hR0,
      if_neg (not_not_intro hsort), hmn, hmx]
    by_cases hC : ¬(R_part.headD (ERad.val 0) < ERad.val mn) ∨
        R_part.getLastD ERad.inf < ERad.val mx
    · rw [if_pos hC, if_pos hC]
    · rw [if_neg hC, if_neg hC, if_neg (not_not_intro hK),
        if_neg (not_not_intro hS),
        if_neg (by
          rw [not_or]
          exact ⟨not_not_intro hdim.1, not_lt.2 hdim.2⟩),
        if_neg (not_not_intro hlat), if_neg (not_not_intro hkwpos)]
  have hCiff : (¬(R_part.headD (ERad.val 0) < ERad.val mn) ∨
      R_part.getLastD ERad.inf < ERad.val mx) ↔
      ∃ r ∈ rad, ¬(R_part.headD (ERad.val 0) < ERad.val r) ∨
        R_part.getLastD ERad.inf < ERad.val r := by
    constructor
    · intro hC
      rcases hC with h1 | h2
      · exact ⟨mn, (min?_spec hmn).1, Or.inl h1⟩
      · exact ⟨mx, (max?_spec hmx).1, Or.inr h2⟩
    · rintro ⟨r, hr, hcase⟩
      rcases hcase with h1 | h2
      · left
        intro hlt
        exact h1 (ERad.lt_val_of_le hlt ((min?_spec hmn).2 r hr))
      · right
        exact ERad.lt_val_of_le h2 ((max?_spec hmx).2 r hr)
  rw [← hCiff]
  by_cases hC : ¬(R_part.headD (ERad.val 0) < ERad.val mn) ∨
      R_part.getLastD ERad.inf < ERad.val mx
  · simp only [hC, iff_true]
    rw [if_pos hC] at hvali
    simp [grf_laplace, hkw, hvali]
  · simp only [hC, iff_false]
    rw [if_neg hC] at hvali
    intro hgrf
    by_cases hp : K_part.length = 1
    · simp only [grf_laplace, hkw, hvali, if_pos hp] at hgrf
      split at hgrf
      · rename_i e hm
        rw [Except.error.injEq] at hgrf
        have : e = Err.linAlgError :=
          mapRows_error (fun se e0 h0 => singleRow_error h0) hm
        rw [this] at hgrf
        exact Err.noConfusion hgrf
      · exact absurd hgrf (by simp)
    · simp [grf_laplace, hkw, hvali, if_neg hp] at hgrf

/-! ### Claim C4: per-variable independence despite workspace reuse -/

/-- C4: row `i` of a batch call equals the single row of the singleton call
    with `s_i` alone: the reuse of the `Mb`, `V`, `X` workspaces (including
    the in-place zeroing through the truncated view `M_sgl`) never leaks
    between transform variables. -/
theorem claim_C4 (env : NumEnv) (s rad S_part K_part : List ℚ)
    (R_part : List ERad) (dim lat_ext rate : ℚ) (K_well : Option ℚ)
    (cut_off_prec : ℚ) (res : List (List ℚ)) (i : ℕ)
    (h : grf_laplace env s rad S_part K_part R_part dim lat_ext rate K_well
      cut_off_prec = .ok res)
    (hi : i < s.length) :
    ∃ row, grf_laplace env [s.getD i 0] rad S_part K_part R_part dim lat_ext
        rate K_well cut_off_prec = .ok [row] ∧ res.getD i [] = row := by
  cases hkw : resolveKw K_well K_part with
  | none => simp [grf_laplace, hkw] at h
  | some kw =>
    cases hval : validate rad S_part K_part R_part dim lat_ext kw with
    | some e => simp [grf_laplace, hkw, hval] at h
    | none =>
      by_cases hp : K_part.length = 1
      · simp only [grf_laplace, hkw, hval, if_pos hp] at h ⊢
        split at h
        · exact absurd h (by simp)
        · rename_i rows hm
          rw [Except.ok.injEq] at h
          subst h
          have hlen := mapRows_ok_length hm
          have hfi := mapRows_ok_getD hm i hi
          refine ⟨(rows.getD i []).map
            (fun x => x * (rate /
              (kw * env.sphSurf dim * env.rpow lat_ext (3 - dim)))), ?_, ?_⟩
          · rw [show mapRows (fun se => singleRow env (1 - dim / 2)
                (R_part.headD (ERad.val 0)) (R_part.getLastD ERad.inf)
                (env.sqrt (S_part.getD 0 0 / K_part.getD 0 0)) rad
                (QsOf env (1 - dim / 2)
                  (env.sqrt (S_part.getD 0 0 / K_part.getD 0 0))
                  (R_part.headD (ERad.val 0)) se) se) [s.getD i 0] =
              .ok [rows.getD i []] by
                unfold mapRows
                rw [hfi]
                rfl]
            rfl
          · exact getD_map_of_lt _ rows i (by rw [hlen]; exact hi) [] []
      · simp only [grf_laplace, hkw, hval, if_neg hp, Except.ok.injEq] at h ⊢
        subst h
        rw [runLoop_eq _ s _ (initState_mbInv _) (fun _ _ => rfl),
          runLoop_eq _ [s.getD i 0] _ (initState_mbInv _) (fun _ _ => rfl)]
        refine ⟨_, rfl, ?_⟩
        rw [scaleRes, getD_map_of_lt _ (List.map _ s) i (by simpa using hi)
          [] [], getD_map_of_lt _ s i hi [] 0]

set_option maxHeartbeats 1600000 in
theorem claim_C4_witness :
    grf_laplace env0 [4, 9] [2] [1, 1] [1, 1]
        [ERad.val 1, ERad.val 2, ERad.val 3] 2 1 1 none (1 / 100) =
      .ok [[0], [0]] ∧
    ∃ row, grf_laplace env0 [9] [2] [1, 1] [1, 1]
        [ERad.val 1, ERad.val 2, ERad.val 3] 2 1 1 none (1 / 100) =
      .ok [row] ∧ [[(0 : ℚ)], [0]].getD 1 [] = row := by
  have hrg4 : List.range 4 = [0, 1, 2, 3] := rfl
  have hrg5 : List.range 5 = [0, 1, 2, 3, 4] := rfl
  have hrg1 : List.range 1 = [0] := rfl
  have hkw : resolveKw none [1, 1] = some 1 := rfl
  have hval : validate [2] [1, 1] [1, 1]
      [ERad.val 1, ERad.val 2, ERad.val 3] 2 1 1 = none := by decide
  have hmm := grf_laplace_multi env0 [4, 9] [2] [1, 1] [1, 1]
    [ERad.val 1, ERad.val 2, ERad.val 3] 2 1 1 none (1 / 100) 1 hkw hval
    (by decide)
  have hA : grf_laplace env0 [4, 9] [2] [1, 1] [1, 1]
      [ERad.val 1, ERad.val 2, ERad.val 3] 2 1 1 none (1 / 100) =
      .ok [[0], [0]] := by
    rw [hmm]
    norm_num [pureRow, grfStep, initState, assembleM, allWrites, loopWrites,
      boundaryWrites, applyWrites, mset, vset, MInit, firstIdx, colCross,
      colMax, solveX, truncZero, bandRows, rowEval, headAt, MCtx.pos,
      MCtx.difsr, MCtx.Kfrac, MCtx.tmp, MCtx.R, MCtx.Rq, MCtx.Cs, QsOf,
      solve2, scaleRes, kv0, kv1, iv0, iv1, env0, ERad.q, hrg4, hrg5, hrg1,
      List.countP_cons, List.find?, abs_eq_max_neg, max_def]
  exact ⟨hA, claim_C4 env0 [4, 9] [2] [1, 1] [1, 1]
    [ERad.val 1, ERad.val 2, ERad.val 3] 2 1 1 none (1 / 100) [[0], [0]] 1
    hA (by decide)⟩

/-! ### Claim C2: local degrade-to-zero on numerical singularity -/

/-- Zero-initialised right-hand side with the pumping term, as one
    iteration of the loop sees it. -/
def pureV (c : MCtx) (se : ℚ) : ℕ → ℚ :=
  vset (fun _ => 0) 0 (QsOf c.env c.nu (c.difsr 0) (c.R 0) se)

theorem pureX_eq (c : MCtx) (se : ℚ) :
    pureX c se = solveX c (pureMb c se) (pureV c se) (pureFirst c se)
      (fun j => if 2 * pureFirst c se ≤ j then (0 : ℚ) else 0) := rfl

/-- The per-variable numerical-singularity condition: the 2x2 solve raises
    `LinAlgError`, or the banded solve is singular (all-NaN output). -/
def singularAt (c : MCtx) (se : ℚ) : Prop :=
  if pureFirst c se ≤ 1 then
    solve2 (pureMb c se 2 0) (pureMb c se 1 1) (pureMb c se 3 0)
      (pureMb c se 2 1) (pureV c se 0) (pureV c se 1) = none
  else
    c.env.psolve
      (bandRows (if pureFirst c se < c.parts
        then truncZero (pureMb c se) (pureFirst c se) else pureMb c se)
        (2 * pureFirst c se))
      ((List.range (2 * pureFirst c se)).map (pureV c se)) = none

theorem pureX_zero_of_singular (c : MCtx) (se : ℚ) (h : singularAt c se) :
    ∀ j, pureX c se j = 0 := by
  intro j
  rw [pureX_eq]
  unfold singularAt at h
  unfold solveX
  by_cases hf : pureFirst c se ≤ 1
  · rw [if_pos hf] at h ⊢
    rw [h]
    by_cases hj : j < 2 <;> simp [hj]
  · rw [if_neg hf] at h ⊢
    rw [h]
    by_cases hj : j < 2 * pureFirst c se <;> simp [hj]

theorem rowEval_zero (c : MCtx) (se : ℚ) (X : ℕ → ℚ)
    (hX : ∀ j, X j = 0) :
    rowEval c se X = List.replicate c.rad.length 0 := by
  rw [show List.replicate c.rad.length (0 : ℚ) =
      c.rad.map (fun _ => 0) by
    rw [List.map_const']
  ]
  unfold rowEval headAt
  refine List.map_congr_left ?_
  intro re _
  simp [hX]

/-- C2: if the (possibly truncated) system of transform variable `s_i` is
    numerically singular, the call still succeeds, row `i` is all zeros
    after scaling, and every other row is still the row its own singleton
    call would produce. -/
theorem claim_C2 (env : NumEnv) (s rad S_part K_part : List ℚ)
    (R_part : List ERad) (dim lat_ext rate : ℚ) (K_well : Option ℚ)
    (cut_off_prec kw : ℚ) (i : ℕ)
    (hkw : resolveKw K_well K_part = some kw)
    (hval : validate rad S_part K_part R_part dim lat_ext kw = none)
    (hp : K_part.length ≠ 1)
    (hi : i < s.length)
    (hsing : singularAt ⟨env, 1 - dim / 2, K_part.length, R_part, K_part,
      S_part, cut_off_prec, rad⟩ (s.getD i 0)) :
    ∃ res, grf_laplace env s rad S_part K_part R_part dim lat_ext rate
        K_well cut_off_prec = .ok res ∧
      res.getD i [] = List.replicate rad.length 0 ∧
      ∀ j, j < s.length → ∃ rowj,
        grf_laplace env [s.getD j 0] rad S_part K_part R_part dim lat_ext
          rate K_well cut_off_prec = .ok [rowj] ∧ res.getD j [] = rowj := by
  refine ⟨_, grf_laplace_multi env s rad S_part K_part R_part dim lat_ext
    rate K_well cut_off_prec kw hkw hval hp, ?_, ?_⟩
  · rw [scaleRes, getD_map_of_lt _ (List.map _ s) i (by simpa using hi)
      [] [], getD_map_of_lt _ s i hi [] 0, pureRow_eq,
      rowEval_zero _ _ _ (pureX_zero_of_singular _ _ hsing)]
    show List.map _ (List.replicate rad.length 0) = _
    rw [List.map_replicate, zero_mul]
  · intro j hj
    refine ⟨List.map (fun x => x * (rate /
        (kw * env.sphSurf dim * env.rpow lat_ext (3 - dim))))
      (pureRow ⟨env, 1 - dim / 2, K_part.length, R_part, K_part, S_part,
        cut_off_prec, rad⟩ (s.getD j 0)), ?_, ?_⟩
    · rw [grf_laplace_multi env [s.getD j 0] rad S_part K_part R_part dim
        lat_ext rate K_well cut_off_prec kw hkw hval hp]
      rfl
    · rw [scaleRes, getD_map_of_lt _ (List.map _ s) j (by simpa using hj)
        [] [], getD_map_of_lt _ s j hj [] 0]

theorem claim_C2_witness :
    ∃ res, grf_laplace env0 [4, 9] [2] [1, 1] [1, 1]
        [ERad.val 1, ERad.val 2, ERad.val 3] 2 1 1 none (1 / 100) =
        .ok res ∧
      res.getD 0 [] = List.replicate [(2 : ℚ)].length 0 ∧
      ∀ j, j < [(4 : ℚ), 9].length → ∃ rowj,
        grf_laplace env0 [[(4 : ℚ), 9].getD j 0] [2] [1, 1] [1, 1]
          [ERad.val 1, ERad.val 2, ERad.val 3] 2 1 1 none (1 / 100) =
          .ok [rowj] ∧ res.getD j [] = rowj := by
  have hrg4 : List.range 4 = [0, 1, 2, 3] := rfl
  have hrg5 : List.range 5 = [0, 1, 2, 3, 4] := rfl
  refine claim_C2 env0 [4, 9] [2] [1, 1] [1, 1]
    [ERad.val 1, ERad.val 2, ERad.val 3] 2 1 1 none (1 / 100) 1 0 rfl
    (by decide) (by decide) (by decide) ?_
  norm_num [singularAt, pureFirst, pureMb, pureV, assembleM, allWrites,
    loopWrites, boundaryWrites, applyWrites, mset, vset, MInit, firstIdx,
    colCross, colMax, truncZero, bandRows, MCtx.difsr, MCtx.Kfrac, MCtx.tmp,
    MCtx.R, MCtx.Rq, MCtx.Cs, QsOf, solve2, kv0, kv1, iv0, iv1, env0,
    ERad.q, hrg4, hrg5, List.find?, abs_eq_max_neg, max_def]

/-! ### Claim C1: the condition guard and coefficient truncation -/

theorem find?_range_some {p : ℕ → Bool} :
    ∀ {n m : ℕ}, (List.range n).find? p = some m →
      p m = true ∧ ∀ j, j < m → p j = false := by
  intro n
  induction n with
  | zero => intro m h; exact absurd h (by simp)
  | succ n ih =>
    intro m h
    rw [List.range_succ, List.find?_append] at h
    cases hf : (List.range n).find? p with
    | some m0 =>
      rw [hf] at h
      simp only [Option.or_some] at h
      cases h
      exact ih hf
    | none =>
      rw [hf] at h
      simp only [Option.none_or] at h
      have hall : ∀ x ∈ List.range n, ¬ p x = true := List.find?_eq_none.1 hf
      simp only [List.find?] at h
      by_cases hpn : p n
      · rw [hpn] at h
        simp at h
        subst h
        refine ⟨hpn, fun j hj => ?_⟩
        have := hall j (List.mem_range.2 hj)
        simpa using this
      · rw [Bool.not_eq_true] at hpn
        rw [hpn] at h
        exact absurd h (by simp)

/-- A disk crosses the conditioning threshold when either of its two
    columns does. -/
def diskCross (c : MCtx) (A : ℕ → ℕ → ℚ) (k : ℕ) : Prop :=
  colCross c.cut A (2 * k) = true ∨ colCross c.cut A (2 * k + 1) = true

theorem pureX_tail (c : MCtx) (se : ℚ) :
    ∀ j, 2 * max (pureFirst c se) 1 ≤ j → pureX c se j = 0 := by
  intro j hj
  rw [pureX_eq]
  unfold solveX
  have hmx : 1 ≤ max (pureFirst c se) 1 := le_max_right _ _
  have hmf : pureFirst c se ≤ max (pureFirst c se) 1 := le_max_left _ _
  by_cases hf : pureFirst c se ≤ 1
  · rw [if_pos hf]
    cases solve2 (pureMb c se 2 0) (pureMb c se 1 1) (pureMb c se 3 0)
        (pureMb c se 2 1) (pureV c se 0) (pureV c se 1) with
    | some p =>
      have h0 : j ≠ 0 := by omega
      have h1 : j ≠ 1 := by omega
      simp [h0, h1]
    | none =>
      have h2 : ¬ j < 2 := by omega
      simp [h2]
  · rw [if_neg hf]
    have hm : max (pureFirst c se) 1 = pureFirst c se := by omega
    rw [hm] at hj
    cases c.env.psolve (bandRows (if pureFirst c se < c.parts
        then truncZero (pureMb c se) (pureFirst c se) else pureMb c se)
        (2 * pureFirst c se))
        ((List.range (2 * pureFirst c se)).map (pureV c se)) with
    | some l =>
      have h2 : ¬ j < 2 * pureFirst c se := by omega
      simp [h2]
    | none =>
      have h2 : ¬ j < 2 * pureFirst c se := by omega
      simp [h2]

/-- C1 (amended): `first` is the first disk index either of whose two
    columns has maximum absolute entry below `cut_off_prec` or above
    `1/cut_off_prec` (and `parts` when none crosses), and every coefficient
    `X_j` with `j >= 2*max(first,1)` is exactly zero.  When `first = 0`,
    the innermost 2x2 block is nevertheless solved, so `X_0`, `X_1` need
    not be zero. -/
theorem claim_C1_amended (c : MCtx) (se : ℚ) :
    pureFirst c se ≤ c.parts ∧
    (∀ k, k < pureFirst c se → ¬diskCross c (pureMb c se) k) ∧
    (pureFirst c se < c.parts → diskCross c (pureMb c se) (pureFirst c se)) ∧
    (∀ j, 2 * max (pureFirst c se) 1 ≤ j → pureX c se j = 0) := by
  have hdef : pureFirst c se =
      match (List.range (2 * c.parts)).find?
        (fun cidx => colCross c.cut (pureMb c se) cidx) with
      | some cidx => cidx / 2
      | none => c.parts := rfl
  cases hf : (List.range (2 * c.parts)).find?
      (fun cidx => colCross c.cut (pureMb c se) cidx) with
  | some cidx =>
    have hval : pureFirst c se = cidx / 2 := by rw [hdef, hf]
    have hfs := find?_range_some hf
    have hcid : cidx < 2 * c.parts :=
      List.mem_range.1 (List.mem_of_find?_eq_some hf)
    refine ⟨by omega, ?_, ?_, pureX_tail c se⟩
    · intro k hk hcross
      rw [hval] at hk
      rcases hcross with h1 | h1
      · have h2 := hfs.2 (2 * k) (by omega)
        simp only [h1] at h2
        exact Bool.noConfusion h2
      · have h2 := hfs.2 (2 * k + 1) (by omega)
        simp only [h1] at h2
        exact Bool.noConfusion h2
    · intro _
      have hp : colCross c.cut (pureMb c se) cidx = true := hfs.1
      by_cases hpar : cidx % 2 = 0
      · left
        rw [hval, show 2 * (cidx / 2) = cidx by omega]
        exact hp
      · right
        rw [hval, show 2 * (cidx / 2) + 1 = cidx by omega]
        exact hp
  | none =>
    have hval : pureFirst c se = c.parts := by rw [hdef, hf]
    have hall := List.find?_eq_none.1 hf
    refine ⟨by omega, ?_, by omega, pureX_tail c se⟩
    intro k hk hcross
    rw [hval] at hk
    rcases hcross with h1 | h1
    · exact absurd h1 (by
        simpa using hall (2 * k) (List.mem_range.2 (by omega)))
    · exact absurd h1 (by
        simpa using hall (2 * k + 1) (List.mem_range.2 (by omega)))

/-- The concrete multi-disk context of the C1 counterexample: two disks,
    `cut_off_prec = 1`, constant kernels that drive the first column's
    maximum below the threshold. -/
def cexC1 : MCtx :=
  ⟨env0, 0, 2, [ERad.val 1, ERad.val 2, ERad.val 3], [1, 1], [1, 1], 1, [2]⟩

theorem claim_C1_counterexample :
    pureFirst cexC1 4 = 0 ∧ pureX cexC1 4 0 ≠ 0 := by
  have hrg4 : List.range 4 = [0, 1, 2, 3] := rfl
  have hrg5 : List.range 5 = [0, 1, 2, 3, 4] := rfl
  have hfst : pureFirst cexC1 4 = 0 := by
    norm_num [cexC1, pureFirst, pureMb, assembleM, allWrites, loopWrites,
      boundaryWrites, applyWrites, mset, MInit, firstIdx, colCross, colMax,
      MCtx.difsr, MCtx.Kfrac, MCtx.tmp, MCtx.R, MCtx.Rq, MCtx.Cs, kv0, kv1,
      iv0, iv1, env0, ERad.q, hrg4, hrg5, List.find?, abs_eq_max_neg,
      max_def]
  refine ⟨hfst, ?_⟩
  norm_num [cexC1, pureX, grfStep, initState, solveX, hfst, pureFirst,
    pureMb, assembleM, allWrites, loopWrites, boundaryWrites, applyWrites,
    mset, vset, MInit, firstIdx, colCross, colMax, truncZero, bandRows,
    MCtx.difsr, MCtx.Kfrac, MCtx.tmp, MCtx.R, MCtx.Rq, MCtx.Cs, QsOf,
    solve2, kv0, kv1, iv0, iv1, env0, ERad.q, hrg4, hrg5, List.find?,
    abs_eq_max_neg, max_def]

/-! ### Claim C10: radii equal to the outer boundary -/

theorem ERad.ltTrans {a b c : ERad} (hab : a < b) (hbc : b < c) :
    a < c := by
  cases a with
  | inf => exact absurd hab ERad.not_inf_lt
  | val qa =>
    cases c with
    | inf => exact ERad.val_lt_inf
    | val qc =>
      cases b with
      | inf => exact absurd hbc ERad.not_inf_lt
      | val qb =>
        exact ERad.val_lt_val.2
          (lt_trans (ERad.val_lt_val.1 hab) (ERad.val_lt_val.1 hbc))

theorem zip_tail_mem {l : List ERad} {idx : ℕ} (h : idx + 1 < l.length) :
    (l.getD idx ERad.inf, l.getD (idx + 1) ERad.inf) ∈ l.zip l.tail := by
  have hlt : idx < (l.zip l.tail).length := by
    rw [List.length_zip, List.length_tail]
    omega
  have he : (l.zip l.tail)[idx] =
      (l.getD idx ERad.inf, l.getD (idx + 1) ERad.inf) := by
    rw [List.getElem_zip, List.getElem_tail,
      List.getD_eq_getElem _ _ (by omega), List.getD_eq_getElem _ _ h]
  rw [← he]
  exact List.getElem_mem hlt

theorem sorted_getD_lt {l : List ERad}
    (hs : ∀ p ∈ l.zip l.tail, p.1 < p.2) :
    ∀ jdx idx, idx < jdx → jdx < l.length →
      l.getD idx ERad.inf < l.getD jdx ERad.inf := by
  intro jdx
  induction jdx with
  | zero => omega
  | succ n ih =>
    intro idx h1 h2
    have hadj : l.getD n ERad.inf < l.getD (n + 1) ERad.inf :=
      hs _ (zip_tail_mem (by omega))
    rcases Nat.lt_succ_iff_lt_or_eq.1 h1 with h | h
    · exact ERad.ltTrans (ih idx h (by omega)) hadj
    · subst h
      exact hadj

theorem countP_front_block {p : ERad → Bool} :
    ∀ (l : List ERad) (k : ℕ), k ≤ l.length →
      (∀ idx, idx < k → p (l.getD idx ERad.inf) = true) →
      (∀ idx, k ≤ idx → idx < l.length → p (l.getD idx ERad.inf) = false) →
      l.countP p = k := by
  intro l
  induction l with
  | nil =>
    intro k hk _ _
    simp only [List.length_nil, Nat.le_zero] at hk
    simp [hk]
  | cons a l ih =>
    intro k hk h1 h2
    rw [List.countP_cons]
    cases k with
    | zero =>
      have ha := h2 0 (by omega) (by simp)
      rw [List.getD_cons_zero] at ha
      rw [ih 0 (by omega) (by omega)
        (fun idx _ hidx => by
          have := h2 (idx + 1) (by omega) (by simpa using by omega)
          rwa [List.getD_cons_succ] at this)]
      simp [ha]
    | succ k0 =>
      have ha := h1 0 (by omega)
      rw [List.getD_cons_zero] at ha
      rw [ih k0 (by simpa using hk)
        (fun idx hidx => by
          have := h1 (idx + 1) (by omega)
          rwa [List.getD_cons_succ] at this)
        (fun idx hk0 hidx => by
          have := h2 (idx + 1) (by omega) (by simpa using by omega)
          rwa [List.getD_cons_succ] at this)]
      simp [ha]

theorem validate_none_facts {rad S_part K_part : List ℚ}
    {R_part : List ERad} {dim lat_ext kw : ℚ}
    (h : validate rad S_part K_part R_part dim lat_ext kw = none) :
    ((R_part.length : ℤ) - 1 = S_part.length ∧
      S_part.length = K_part.length ∧ 0 < K_part.length) ∧
    (∀ p ∈ R_part.zip R_part.tail, p.1 < p.2) := by
  unfold validate at h
  by_cases h1 : ¬((R_part.length : ℤ) - 1 = S_part.length ∧
      S_part.length = K_part.length ∧ 0 < K_part.length)
  · rw [if_pos h1] at h
    exact absurd h (by simp)
  · rw [if_neg h1] at h
    refine ⟨not_not.1 h1, ?_⟩
    by_cases h2 : R_part.headD (ERad.val 0) < ERad.val 0
    · rw [if_pos h2] at h
      exact absurd h (by simp)
    · rw [if_neg h2] at h
      by_cases h3 : ¬(∀ p ∈ R_part.zip R_part.tail, p.1 < p.2)
      · rw [if_pos h3] at h
        exact absurd h (by simp)
      · exact not_not.1 h3

/-- `np.searchsorted(R_part, R_N) - 1` assigns the outer boundary to the
    last disk. -/
theorem pos_last (c : MCtx) (RN : ℚ)
    (hlen : c.R_part.length = c.parts + 1)
    (hsort : ∀ p ∈ c.R_part.zip c.R_part.tail, p.1 < p.2)
    (hlast : c.R_part.getD c.parts ERad.inf = ERad.val RN) :
    c.pos RN = c.parts - 1 := by
  unfold MCtx.pos
  rw [countP_front_block c.R_part c.parts (by omega)
    (fun idx hidx => by
      have h := sorted_getD_lt hsort c.parts idx hidx (by omega)
      rw [hlast] at h
      simpa using h)
    (fun idx h1 h2 => by
      have hidx : idx = c.parts := by omega
      subst hidx
      rw [hlast]
      simp)]

/-- C10: (single disk, finite outer boundary) a requested radius equal to
    `R_1` always produces `0` in its result column, since the head formula
    is evaluated only at radii strictly below `R_1`; (multi-disk) a radius
    equal to `R_N` is assigned to the last disk and the head formula IS
    evaluated there. -/
theorem claim_C10 :
    (∀ (env : NumEnv) (s rad S_part K_part : List ℚ) (R0v R1v : ℚ)
      (dim lat_ext rate : ℚ) (K_well : Option ℚ) (cut_off_prec : ℚ)
      (res : List (List ℚ)) (i k : ℕ),
      grf_laplace env s rad S_part K_part [ERad.val R0v, ERad.val R1v] dim
        lat_ext rate K_well cut_off_prec = .ok res →
      K_part.length = 1 → i < s.length → k < rad.length →
      rad.getD k 0 = R1v →
      (res.getD i []).getD k 0 = 0) ∧
    (∀ (env : NumEnv) (s rad S_part K_part : List ℚ) (R_part : List ERad)
      (dim lat_ext rate : ℚ) (K_well : Option ℚ) (cut_off_prec kw RN : ℚ)
      (res : List (List ℚ)) (i k : ℕ),
      resolveKw K_well K_part = some kw →
      validate rad S_part K_part R_part dim lat_ext kw = none →
      K_part.length ≠ 1 →
      R_part.getD K_part.length ERad.inf = ERad.val RN →
      grf_laplace env s rad S_part K_part R_part dim lat_ext rate K_well
        cut_off_prec = .ok res →
      i < s.length → k < rad.length → rad.getD k 0 = RN →
      MCtx.pos ⟨env, 1 - dim / 2, K_part.length, R_part, K_part, S_part,
        cut_off_prec, rad⟩ RN = K_part.length - 1 ∧
      (res.getD i []).getD k 0 =
        headAt ⟨env, 1 - dim / 2, K_part.length, R_part, K_part, S_part,
          cut_off_prec, rad⟩ (s.getD i 0)
          (pureX ⟨env, 1 - dim / 2, K_part.length, R_part, K_part, S_part,
            cut_off_prec, rad⟩ (s.getD i 0)) RN *
        (rate / (kw * env.sphSurf dim * env.rpow lat_ext (3 - dim)))) := by
  constructor
  · intro env s rad S_part K_part R0v R1v dim lat_ext rate K_well
      cut_off_prec res i k h hN hi hk hradk
    cases hkw : resolveKw K_well K_part with
    | none => simp [grf_laplace, hkw] at h
    | some kw =>
      cases hval : validate rad S_part K_part
          [ERad.val R0v, ERad.val R1v] dim lat_ext kw with
      | some e => simp [grf_laplace, hkw, hval] at h
      | none =>
        simp only [grf_laplace, hkw, hval, if_pos hN] at h
        split at h
        · exact absurd h (by simp)
        · rename_i rows hm
          rw [Except.ok.injEq] at h
          subst h
          have hlen := mapRows_ok_length hm
          have hok := mapRows_ok_getD hm i hi
          have hrowlen : (rows.getD i []).length = rad.length :=
            singleRow_ok_length hok
          rw [scaleRes, getD_map_of_lt _ rows i (by omega) [] [],
            getD_map_of_lt _ (rows.getD i []) k (by omega) 0 0]
          simp only [singleRow] at hok
          split at hok
          · exact absurd hok (by simp)
          · rw [Except.ok.injEq] at hok
            rw [← hok, getD_map_of_lt _ rad k hk 0 0, hradk]
            have hR1 : [ERad.val R0v, ERad.val R1v].getLastD ERad.inf =
                ERad.val R1v := rfl
            rw [hR1, if_neg (by simp), zero_mul]
  · intro env s rad S_part K_part R_part dim lat_ext rate K_well
      cut_off_prec kw RN res i k hkw hval hp hRN h hi hk hradk
    obtain ⟨hlens, hsort⟩ := validate_none_facts hval
    have hRlen : R_part.length = K_part.length + 1 := by omega
    have hpos : MCtx.pos ⟨env, 1 - dim / 2, K_part.length, R_part, K_part,
        S_part, cut_off_prec, rad⟩ RN = K_part.length - 1 :=
      pos_last _ RN hRlen hsort hRN
    refine ⟨hpos, ?_⟩
    rw [grf_laplace_multi env s rad S_part K_part R_part dim lat_ext rate
      K_well cut_off_prec kw hkw hval hp, Except.ok.injEq] at h
    subst h
    rw [scaleRes, getD_map_of_lt _ (List.map _ s) i (by simpa using hi)
      [] [], getD_map_of_lt _ s i hi [] 0,
      getD_map_of_lt _ _ k (by rw [pureRow_eq, rowEval_length]; exact hk)
        0 0, pureRow_eq, rowEval, getD_map_of_lt _ _ k hk 0 0, hradk]

set_option maxHeartbeats 1600000 in
theorem claim_C10_witness :
    (([[(0 : ℚ)]].getD 0 []).getD 0 0 = 0) ∧
    (MCtx.pos ⟨env0, 1 - 2 / 2, 2, [ERad.val 1, ERad.val 2, ERad.val 3],
        [1, 1], [1, 1], 1 / 100, [3]⟩ 3 = 1 ∧
      ([[(0 : ℚ)]].getD 0 []).getD 0 0 =
        headAt ⟨env0, 1 - 2 / 2, 2, [ERad.val 1, ERad.val 2, ERad.val 3],
            [1, 1], [1, 1], 1 / 100, [3]⟩ 4
          (pureX ⟨env0, 1 - 2 / 2, 2, [ERad.val 1, ERad.val 2, ERad.val 3],
            [1, 1], [1, 1], 1 / 100, [3]⟩ 4) 3 *
          (1 / (1 * env0.sphSurf 2 * env0.rpow 1 (3 - 2)))) := by
  have hrg4 : List.range 4 = [0, 1, 2, 3] := rfl
  have hrg5 : List.range 5 = [0, 1, 2, 3, 4] := rfl
  have hga : grf_laplace env0 [1] [3] [1] [1] [ERad.val 1, ERad.val 3]
      2 1 1 none 1 = .ok [[0]] := by
    norm_num [grf_laplace, resolveKw, validate, mapRows, singleRow, singleM,
      solve2, QsOf, scaleRes, kv0, kv1, iv0, iv1, env0, List.min?, List.max?,
      ERad.q]
  have hgb : grf_laplace env0 [4] [3] [1, 1] [1, 1]
      [ERad.val 1, ERad.val 2, ERad.val 3] 2 1 1 none (1 / 100) =
      .ok [[0]] := by
    rw [grf_laplace_multi env0 [4] [3] [1, 1] [1, 1]
      [ERad.val 1, ERad.val 2, ERad.val 3] 2 1 1 none (1 / 100) 1 rfl
      (by decide) (by decide)]
    norm_num [pureRow, grfStep, initState, assembleM, allWrites, loopWrites,
      boundaryWrites, applyWrites, mset, vset, MInit, firstIdx, colCross,
      colMax, solveX, truncZero, bandRows, rowEval, headAt, MCtx.pos,
      MCtx.difsr, MCtx.Kfrac, MCtx.tmp, MCtx.R, MCtx.Rq, MCtx.Cs, QsOf,
      solve2, scaleRes, kv0, kv1, iv0, iv1, env0, ERad.q, hrg4, hrg5,
      List.countP_cons, List.find?, abs_eq_max_neg, max_def]
  exact ⟨claim_C10.1 env0 [1] [3] [1] [1] 1 3 2 1 1 none 1 [[0]] 0 0 hga
      rfl (by decide) (by decide) (by decide),
    claim_C10.2 env0 [4] [3] [1, 1] [1, 1]
      [ERad.val 1, ERad.val 2, ERad.val 3] 2 1 1 none (1 / 100) 1 3 [[0]]
      0 0 rfl (by decide) (by decide) (by decide) hgb (by decide)
      (by decide) (by decide)⟩

theorem claim_C3_witness :
    grf_laplace env0 [1] [1, 5] [1] [1] [ERad.val 1, ERad.val 4] 2 1 1
      none 1 = .error Err.radRange := by
  have h := claim_C3 env0 [1] [1, 5] [1] [1] [ERad.val 1, ERad.val 4] 2 1 1
    none 1 1 (by decide) (by decide) (by decide) (by decide) (by decide)
    (by decide) (by decide) (by decide) (by decide) (by decide)
  exact h.2 ⟨1, by decide, Or.inl (by decide)⟩

/-! ### Claim C6: the NaN/Inf cleanup (`np.nan_to_num`) -/

/-- IEEE-754 double values as classified by `np.nan_to_num`: finite
    (carrying its exact value), the two infinities, NaN. -/
inductive FVal where
  | fin (q : ℚ)
  | pinf
  | ninf
  | nan
  deriving DecidableEq

/-- `np.finfo(np.float64).max = (2^53 - 1) * 2^971`, the replacement value
    `np.nan_to_num` uses for `+inf` by default. -/
def FMAX : ℚ := (2 ^ 53 - 1) * 2 ^ 971

/-- Elementwise `np.nan_to_num` with default arguments: NaN to `0.0`,
    `+inf` to the largest finite double, `-inf` to its negative. -/
def nanToNum : FVal → FVal
  | .nan => .fin 0
  | .pinf => .fin FMAX
  | .ninf => .fin (-FMAX)
  | .fin q => .fin q

/-- `np.nan_to_num(X, copy=False)` (before head evaluation) and
    `np.nan_to_num(res, copy=False)` (before the pumping-rate scaling). -/
def nanToNumVec (X : List FVal) : List FVal := X.map nanToNum

theorem claim_C6_counterexample :
    ¬(nanToNumVec [FVal.pinf] = [FVal.fin 0]) := by
  intro h
  rw [show nanToNumVec [FVal.pinf] = [FVal.fin FMAX] from rfl] at h
  simp only [List.cons.injEq, FVal.fin.injEq, and_true] at h
  rw [FMAX] at h
  norm_num at h

/-- C6 (amended): the cleanup applied to the coefficient vector (and to
    the result matrix before scaling) replaces every NaN by exactly zero,
    but replaces infinite values by the largest-magnitude finite double of
    matching sign (`np.nan_to_num` default), which is not zero; finite
    entries pass through unchanged and the output has no NaN or infinity
    left. -/
theorem claim_C6_amended (X : List FVal) (j : ℕ) (hj : j < X.length) :
    (X.getD j FVal.nan = FVal.nan →
      (nanToNumVec X).getD j FVal.nan = FVal.fin 0) ∧
    (X.getD j FVal.nan = FVal.pinf →
      (nanToNumVec X).getD j FVal.nan = FVal.fin FMAX ∧ FMAX ≠ 0) ∧
    (X.getD j FVal.nan = FVal.ninf →
      (nanToNumVec X).getD j FVal.nan = FVal.fin (-FMAX) ∧ -FMAX ≠ 0) ∧
    (∀ q, X.getD j FVal.nan = FVal.fin q →
      (nanToNumVec X).getD j FVal.nan = FVal.fin q) ∧
    (∀ v ∈ nanToNumVec X, ∃ q, v = FVal.fin q) := by
  have hmax : FMAX ≠ 0 := by
    rw [FMAX]
    norm_num
  have hget : (nanToNumVec X).getD j FVal.nan =
      nanToNum (X.getD j FVal.nan) := by
    rw [nanToNumVec, getD_map_of_lt nanToNum X j hj _ FVal.nan]
  refine ⟨?_, ?_, ?_, ?_, ?_⟩
  · intro h
    rw [hget, h]
    rfl
  · intro h
    rw [hget, h]
    exact ⟨rfl, hmax⟩
  · intro h
    rw [hget, h]
    exact ⟨rfl, by simpa using hmax⟩
  · intro q h
    rw [hget, h]
    rfl
  · intro v hv
    rcases List.mem_map.1 hv with ⟨u, _, he⟩
    cases u <;> exact ⟨_, he.symm⟩

theorem claim_C6_witness :
    ([FVal.pinf].getD 0 FVal.nan = FVal.pinf →
      (nanToNumVec [FVal.pinf]).getD 0 FVal.nan = FVal.fin FMAX ∧
        FMAX ≠ 0) ∧
    ([FVal.pinf].getD 0 FVal.nan = FVal.nan →
      (nanToNumVec [FVal.pinf]).getD 0 FVal.nan = FVal.fin 0) :=
  ⟨(claim_C6_amended [FVal.pinf] 0 (by decide)).2.1,
   (claim_C6_amended [FVal.pinf] 0 (by decide)).1⟩

/-! ### Claim C5: homogeneity collapse.  Machinery. -/

theorem mset_hit (M : ℕ → ℕ → ℚ) (r0 c0 : ℕ) (v : ℚ) :
    mset M r0 c0 v r0 c0 = v := if_pos ⟨rfl, rfl⟩

theorem mset_miss (M : ℕ → ℕ → ℚ) (r0 c0 : ℕ) (v : ℚ) (r cidx : ℕ)
    (h : ¬(r = r0 ∧ cidx = c0)) : mset M r0 c0 v r cidx = M r cidx :=
  if_neg h

theorem applyWrites_append (l1 l2 : List ((ℕ × ℕ) × ℚ)) :
    ∀ M, applyWrites (l1 ++ l2) M = applyWrites l2 (applyWrites l1 M) := by
  induction l1 with
  | nil => intro M; rfl
  | cons w l1 ih =>
    intro M
    obtain ⟨a, v⟩ := w
    show applyWrites (l1 ++ l2) (mset M a.1 a.2 v) = _
    exact ih (mset M a.1 a.2 v)

theorem applyWrites_flatMap_miss (g : ℕ → List ((ℕ × ℕ) × ℚ))
    (r cidx : ℕ) :
    ∀ m, (∀ i M0, i < m → applyWrites (g i) M0 r cidx = M0 r cidx) →
      ∀ M, applyWrites ((List.range m).flatMap g) M r cidx = M r cidx := by
  intro m
  induction m with
  | zero => intro _ M; rfl
  | succ m ih =>
    intro h M
    rw [List.range_succ, List.flatMap_append, List.flatMap_cons,
      List.flatMap_nil, List.append_nil, applyWrites_append,
      h m _ (by omega), ih (fun i M0 hi => h i M0 (by omega)) M]

theorem applyWrites_flatMap_hit (g : ℕ → List ((ℕ × ℕ) × ℚ))
    (r cidx i0 : ℕ)
    (hhit : ∀ M0 M1, applyWrites (g i0) M0 r cidx =
      applyWrites (g i0) M1 r cidx) :
    ∀ m, i0 < m →
      (∀ i M0, i0 < i → i < m → applyWrites (g i) M0 r cidx = M0 r cidx) →
      ∀ M, applyWrites ((List.range m).flatMap g) M r cidx =
        applyWrites (g i0) M r cidx := by
  intro m
  induction m with
  | zero => omega
  | succ m ih =>
    intro hi0 hmiss M
    rw [List.range_succ, List.flatMap_append, List.flatMap_cons,
      List.flatMap_nil, List.append_nil, applyWrites_append]
    by_cases hc : i0 = m
    · subst hc
      exact hhit (applyWrites ((List.range i0).flatMap g) M) M
    · rw [hmiss m _ (by omega) (by omega)]
      exact ih (by omega) (fun i M0 h1 h2 => hmiss i M0 h1 (by omega)) M

theorem solve2_sound {m00 m01 m10 m11 v0 v1 a b : ℚ}
    (h : solve2 m00 m01 m10 m11 v0 v1 = some (a, b)) :
    m00 * a + m01 * b = v0 ∧ m10 * a + m11 * b = v1 := by
  unfold solve2 at h
  by_cases hd : m00 * m11 - m01 * m10 = 0
  · simp only [hd, if_pos rfl] at h
    exact absurd h (by simp)
  · simp only [if_neg hd, Option.some.injEq, Prod.mk.injEq] at h
    obtain ⟨ha, hb⟩ := h
    subst ha
    subst hb
    constructor <;> (field_simp; ring)

theorem mapRows_all_ok {f : ℚ → Except Err (List ℚ)} {g : ℚ → List ℚ} :
    ∀ {s : List ℚ}, (∀ se ∈ s, f se = .ok (g se)) →
      mapRows f s = .ok (s.map g) := by
  intro s
  induction s with
  | nil => intro _; rfl
  | cons se rest ih =>
    intro h
    unfold mapRows
    rw [h se (by simp), ih (fun x hx => h x (by simp [hx]))]
    rfl

theorem getLastD_eq_getD :
    ∀ (l : List ERad) (d : ERad), l.getLastD d = l.getD (l.length - 1) d := by
  intro l
  induction l with
  | nil => intro d; rfl
  | cons a l ih =>
    intro d
    cases l with
    | nil => rfl
    | cons b l2 =>
      rw [List.getLastD_cons, ih a,
        show (a :: b :: l2).length - 1 = (b :: l2).length - 1 + 1 by
          simp,
        List.getD_cons_succ,
        List.getD_eq_getElem _ _ (by simp),
        List.getD_eq_getElem _ _ (by simp)]

theorem getD_replicate {α : Type} (a d : α) :
    ∀ (n i : ℕ), i < n → (List.replicate n a).getD i d = a := by
  intro n
  induction n with
  | zero => omega
  | succ n ih =>
    intro i hi
    rw [List.replicate_succ]
    cases i with
    | zero => rfl
    | succ i0 => rw [List.getD_cons_succ]; exact ih i0 (by omega)

theorem countP_lt_length_of_false {l : List ERad} {p : ERad → Bool}
    {idx : ℕ} (hidx : idx < l.length)
    (hfalse : p (l.getD idx ERad.inf) = false) :
    l.countP p < l.length := by
  rcases Nat.lt_or_ge (l.countP p) l.length with h | h
  · exact h
  · exfalso
    have hle := List.countP_le_length (l := l) (p := p)
    have heq : l.countP p = l.length := by omega
    have hall := List.countP_eq_length.1 heq
    have hmem : l.getD idx ERad.inf ∈ l := by
      rw [List.getD_eq_getElem _ _ hidx]
      exact List.getElem_mem hidx
    rw [hall _ hmem] at hfalse
    exact Bool.noConfusion hfalse

theorem validate_none_rad {rad S_part K_part : List ℚ}
    {R_part : List ERad} {dim lat_ext kw : ℚ}
    (h : validate rad S_part K_part R_part dim lat_ext kw = none) :
    ∀ r ∈ rad, R_part.headD (ERad.val 0) < ERad.val r ∧
      ¬(R_part.getLastD ERad.inf < ERad.val r) := by
  unfold validate at h
  by_cases h1 : ¬((R_part.length : ℤ) - 1 = S_part.length ∧
      S_part.length = K_part.length ∧ 0 < K_part.length)
  · rw [if_pos h1] at h
    exact absurd h (by simp)
  · rw [if_neg h1] at h
    by_cases h2 : R_part.headD (ERad.val 0) < ERad.val 0
    · rw [if_pos h2] at h
      exact absurd h (by simp)
    · rw [if_neg h2] at h
      by_cases h3 : ¬(∀ p ∈ R_part.zip R_part.tail, p.1 < p.2)
      · rw [if_pos h3] at h
        exact absurd h (by simp)
      · rw [if_neg h3] at h
        cases hmn : rad.min? with
        | none => rw [hmn] at h; exact absurd h (by simp)
        | some mn =>
          cases hmx : rad.max? with
          | none => rw [hmn, hmx] at h; exact absurd h (by simp)
          | some mx =>
            simp only [hmn, hmx] at h
            by_cases h4 : ¬(R_part.headD (ERad.val 0) < ERad.val mn) ∨
                R_part.getLastD ERad.inf < ERad.val mx
            · rw [if_pos h4] at h
              exact absurd h (by simp)
            · push_neg at h4
              intro r hr
              constructor
              · exact ERad.lt_val_of_le h4.1 ((min?_spec hmn).2 r hr)
              · intro hlt
                exact h4.2
                  (ERad.lt_val_of_le hlt ((max?_spec hmx).2 r hr))

theorem sum_support_two {n : ℕ} (f : Fin n → ℚ) (a b : Fin n) (hab : a ≠ b)
    (h : ∀ x, x ≠ a → x ≠ b → f x = 0) : (∑ x, f x) = f a + f b := by
  rw [← Finset.sum_pair hab]
  refine (Finset.sum_subset (Finset.subset_univ _) ?_).symm
  intro x _ hx
  simp only [Finset.mem_insert, Finset.mem_singleton] at hx
  push_neg at hx
  exact h x hx.1 hx.2

theorem sum_support_four {n : ℕ} (f : Fin n → ℚ) (a b c d : Fin n)
    (hab : a ≠ b) (hac : a ≠ c) (had : a ≠ d) (hbc : b ≠ c) (hbd : b ≠ d)
    (hcd : c ≠ d)
    (h : ∀ x, x ≠ a → x ≠ b → x ≠ c → x ≠ d → f x = 0) :
    (∑ x, f x) = f a + f b + f c + f d := by
  have hsub : (∑ x ∈ ({a, b, c, d} : Finset (Fin n)), f x) =
      f a + f b + f c + f d := by
    rw [Finset.sum_insert (by simp [hab, hac, had]),
      Finset.sum_insert (by simp [hbc, hbd]),
      Finset.sum_insert (by simp [hcd]), Finset.sum_singleton]
    ring
  rw [← hsub]
  refine (Finset.sum_subset (Finset.subset_univ _) ?_).symm
  intro x _ hx
  simp only [Finset.mem_insert, Finset.mem_singleton] at hx
  push_neg at hx
  exact h x hx.1 hx.2.1 hx.2.2.1 hx.2.2.2

/-! Entry lemmas for the assembled banded matrix (finite outer boundary) -/

theorem boundary_fin_miss (c : MCtx) (se : ℚ) (hfin : c.R c.parts < ERad.inf)
    (r cidx : ℕ)
    (h1 : ¬(r = 2 ∧ cidx = 0)) (h2 : ¬(r = 1 ∧ cidx = 1))
    (h3 : ¬(r = 3 ∧ cidx = 2 * c.parts - 2))
    (h4 : ¬(r = 2 ∧ cidx = 2 * c.parts - 1)) :
    ∀ M, applyWrites (boundaryWrites c se) M r cidx = M r cidx := by
  intro M
  unfold boundaryWrites
  rw [if_pos hfin]
  by_cases hR0 : ERad.val 0 < c.R 0
  · rw [if_pos hR0]
    simp only [List.cons_append, List.nil_append, applyWrites]
    rw [mset_miss _ _ _ _ _ _ h4, mset_miss _ _ _ _ _ _ h3,
      mset_miss _ _ _ _ _ _ h2, mset_miss _ _ _ _ _ _ h1]
  · rw [if_neg hR0]
    simp only [List.nil_append, applyWrites]
    rw [mset_miss _ _ _ _ _ _ h4, mset_miss _ _ _ _ _ _ h3]

theorem boundary_at_2_0 (c : MCtx) (se : ℚ)
    (hfin : c.R c.parts < ERad.inf) (hn : 1 ≤ c.parts) :
    ∀ M, applyWrites (boundaryWrites c se) M 2 0 =
      if ERad.val 0 < c.R 0 then
        -(kv1 c.env c.nu (c.Cs se 0 * c.Rq 0))
      else M 2 0 := by
  intro M
  unfold boundaryWrites
  rw [if_pos hfin]
  by_cases hR0 : ERad.val 0 < c.R 0
  · rw [if_pos hR0, if_pos hR0]
    simp only [List.cons_append, List.nil_append, applyWrites]
    rw [mset_miss _ _ _ _ _ _ (by omega), mset_miss _ _ _ _ _ _ (by omega),
      mset_miss _ _ _ _ _ _ (by omega), mset_hit]
  · rw [if_neg hR0, if_neg hR0]
    simp only [List.nil_append, applyWrites]
    rw [mset_miss _ _ _ _ _ _ (by omega), mset_miss _ _ _ _ _ _ (by omega)]

theorem boundary_at_1_1 (c : MCtx) (se : ℚ)
    (hfin : c.R c.parts < ERad.inf) (hn : 1 ≤ c.parts) :
    ∀ M, applyWrites (boundaryWrites c se) M 1 1 =
      if ERad.val 0 < c.R 0 then
        iv1 c.env c.nu (c.Cs se 0 * c.Rq 0)
      else M 1 1 := by
  intro M
  unfold boundaryWrites
  rw [if_pos hfin]
  by_cases hR0 : ERad.val 0 < c.R 0
  · rw [if_pos hR0, if_pos hR0]
    simp only [List.cons_append, List.nil_append, applyWrites]
    rw [mset_miss _ _ _ _ _ _ (by omega), mset_miss _ _ _ _ _ _ (by omega),
      mset_hit]
  · rw [if_neg hR0, if_neg hR0]
    simp only [List.nil_append, applyWrites]
    rw [mset_miss _ _ _ _ _ _ (by omega), mset_miss _ _ _ _ _ _ (by omega)]

theorem boundary_hit_3 (c : MCtx) (se : ℚ)
    (hfin : c.R c.parts < ERad.inf) (hn : 1 ≤ c.parts) :
    ∀ M, applyWrites (boundaryWrites c se) M 3 (2 * c.parts - 2) =
      kv0 c.env c.nu (c.Cs se (c.parts - 1) * c.Rq c.parts) := by
  intro M
  unfold boundaryWrites
  rw [if_pos hfin]
  by_cases hR0 : ERad.val 0 < c.R 0
  · rw [if_pos hR0]
    simp only [List.cons_append, List.nil_append, applyWrites]
    rw [mset_miss _ _ _ _ _ _ (by omega), mset_hit]
  · rw [if_neg hR0]
    simp only [List.nil_append, applyWrites]
    rw [mset_miss _ _ _ _ _ _ (by omega), mset_hit]

theorem boundary_hit_2 (c : MCtx) (se : ℚ)
    (hfin : c.R c.parts < ERad.inf) :
    ∀ M, applyWrites (boundaryWrites c se) M 2 (2 * c.parts - 1) =
      iv0 c.env c.nu (c.Cs se (c.parts - 1) * c.Rq c.parts) := by
  intro M
  unfold boundaryWrites
  rw [if_pos hfin]
  by_cases hR0 : ERad.val 0 < c.R 0
  · rw [if_pos hR0]
    simp only [List.cons_append, List.nil_append, applyWrites]
    rw [mset_hit]
  · rw [if_neg hR0]
    simp only [List.nil_append, applyWrites]
    rw [mset_hit]

theorem block_miss (c : MCtx) (se : ℚ) (i r cidx : ℕ)
    (h : ¬(r = 0 ∧ cidx = 2 * i + 3) ∧ ¬(r = 1 ∧ cidx = 2 * i + 2) ∧
      ¬(r = 1 ∧ cidx = 2 * i + 3) ∧ ¬(r = 2 ∧ cidx = 2 * i + 1) ∧
      ¬(r = 2 ∧ cidx = 2 * i + 2) ∧ ¬(r = 3 ∧ cidx = 2 * i) ∧
      ¬(r = 3 ∧ cidx = 2 * i + 1) ∧ ¬(r = 4 ∧ cidx = 2 * i)) :
    ∀ M, applyWrites (loopWrites c se i) M r cidx = M r cidx := by
  intro M
  unfold loopWrites
  simp only [applyWrites]
  rw [mset_miss _ _ _ _ _ _ h.2.2.2.2.2.2.2,
    mset_miss _ _ _ _ _ _ h.2.2.2.2.2.2.1,
    mset_miss _ _ _ _ _ _ h.2.2.2.2.2.1,
    mset_miss _ _ _ _ _ _ h.2.2.2.2.1,
    mset_miss _ _ _ _ _ _ h.2.2.2.1,
    mset_miss _ _ _ _ _ _ h.2.2.1,
    mset_miss _ _ _ _ _ _ h.2.1,
    mset_miss _ _ _ _ _ _ h.1]

theorem block_0_2i3 (c : MCtx) (se : ℚ) (i : ℕ) :
    ∀ M, applyWrites (loopWrites c se i) M 0 (2 * i + 3) =
      -(iv0 c.env c.nu (c.Cs se (i + 1) * c.Rq (i + 1))) := by
  intro M
  unfold loopWrites
  simp only [applyWrites]
  rw [mset_miss _ _ _ _ _ _ (by omega), mset_miss _ _ _ _ _ _ (by omega),
    mset_miss _ _ _ _ _ _ (by omega), mset_miss _ _ _ _ _ _ (by omega),
    mset_miss _ _ _ _ _ _ (by omega), mset_miss _ _ _ _ _ _ (by omega),
    mset_miss _ _ _ _ _ _ (by omega), mset_hit]

theorem block_1_2i2 (c : MCtx) (se : ℚ) (i : ℕ) :
    ∀ M, applyWrites (loopWrites c se i) M 1 (2 * i + 2) =
      -(kv0 c.env c.nu (c.Cs se (i + 1) * c.Rq (i + 1))) := by
  intro M
  unfold loopWrites
  simp only [applyWrites]
  rw [mset_miss _ _ _ _ _ _ (by omega), mset_miss _ _ _ _ _ _ (by omega),
    mset_miss _ _ _ _ _ _ (by omega), mset_miss _ _ _ _ _ _ (by omega),
    mset_miss _ _ _ _ _ _ (by omega), mset_miss _ _ _ _ _ _ (by omega),
    mset_hit]

theorem block_1_2i3 (c : MCtx) (se : ℚ) (i : ℕ) :
    ∀ M, applyWrites (loopWrites c se i) M 1 (2 * i + 3) =
      -(iv1 c.env c.nu (c.Cs se (i + 1) * c.Rq (i + 1))) := by
  intro M
  unfold loopWrites
  simp only [applyWrites]
  rw [mset_miss _ _ _ _ _ _ (by omega), mset_miss _ _ _ _ _ _ (by omega),
    mset_miss _ _ _ _ _ _ (by omega), mset_miss _ _ _ _ _ _ (by omega),
    mset_miss _ _ _ _ _ _ (by omega), mset_hit]

theorem block_2_2i1 (c : MCtx) (se : ℚ) (i : ℕ) :
    ∀ M, applyWrites (loopWrites c se i) M 2 (2 * i + 1) =
      iv0 c.env c.nu (c.Cs se i * c.Rq (i + 1)) := by
  intro M
  unfold loopWrites
  simp only [applyWrites]
  rw [mset_miss _ _ _ _ _ _ (by omega), mset_miss _ _ _ _ _ _ (by omega),
    mset_miss _ _ _ _ _ _ (by omega), mset_miss _ _ _ _ _ _ (by omega),
    mset_hit]

theorem block_2_2i2 (c : MCtx) (se : ℚ) (i : ℕ) :
    ∀ M, applyWrites (loopWrites c se i) M 2 (2 * i + 2) =
      kv1 c.env c.nu (c.Cs se (i + 1) * c.Rq (i + 1)) := by
  intro M
  unfold loopWrites
  simp only [applyWrites]
  rw [mset_miss _ _ _ _ _ _ (by omega), mset_miss _ _ _ _ _ _ (by omega),
    mset_miss _ _ _ _ _ _ (by omega), mset_hit]

theorem block_3_2i (c : MCtx) (se : ℚ) (i : ℕ) :
    ∀ M, applyWrites (loopWrites c se i) M 3 (2 * i) =
      kv0 c.env c.nu (c.Cs se i * c.Rq (i + 1)) := by
  intro M
  unfold loopWrites
  simp only [applyWrites]
  rw [mset_miss _ _ _ _ _ _ (by omega), mset_miss _ _ _ _ _ _ (by omega),
    mset_hit]

theorem block_3_2i1 (c : MCtx) (se : ℚ) (i : ℕ) :
    ∀ M, applyWrites (loopWrites c se i) M 3 (2 * i + 1) =
      c.tmp i * iv1 c.env c.nu (c.Cs se i * c.Rq (i + 1)) := by
  intro M
  unfold loopWrites
  simp only [applyWrites]
  rw [mset_miss _ _ _ _ _ _ (by omega), mset_hit]

theorem block_4_2i (c : MCtx) (se : ℚ) (i : ℕ) :
    ∀ M, applyWrites (loopWrites c se i) M 4 (2 * i) =
      -(c.tmp i) * kv1 c.env c.nu (c.Cs se i * c.Rq (i + 1)) := by
  intro M
  unfold loopWrites
  simp only [applyWrites]
  rw [mset_hit]

theorem pureMb_at_2_0 (c : MCtx) (se : ℚ) (hfin : c.R c.parts < ERad.inf)
    (hn : 1 ≤ c.parts) :
    pureMb c se 2 0 =
      if ERad.val 0 < c.R 0 then -(kv1 c.env c.nu (c.Cs se 0 * c.Rq 0))
      else 1 := by
  rw [pureMb, assembleM, allWrites, applyWrites_append,
    boundary_at_2_0 c se hfin hn,
    applyWrites_flatMap_miss (loopWrites c se) 2 0 (c.parts - 1)
      (fun i M0 hi => block_miss c se i 2 0 (by omega) M0) (MInit c.parts)]
  by_cases hR0 : ERad.val 0 < c.R 0 <;> simp [hR0, MInit]

theorem pureMb_at_1_1 (c : MCtx) (se : ℚ) (hfin : c.R c.parts < ERad.inf)
    (hn : 1 ≤ c.parts) :
    pureMb c se 1 1 =
      if ERad.val 0 < c.R 0 then iv1 c.env c.nu (c.Cs se 0 * c.Rq 0)
      else 0 := by
  rw [pureMb, assembleM, allWrites, applyWrites_append,
    boundary_at_1_1 c se hfin hn,
    applyWrites_flatMap_miss (loopWrites c se) 1 1 (c.parts - 1)
      (fun i M0 hi => block_miss c se i 1 1 (by omega) M0) (MInit c.parts)]
  by_cases hR0 : ERad.val 0 < c.R 0 <;> simp [hR0, MInit]

theorem pureMb_0_even (c : MCtx) (se : ℚ) (hfin : c.R c.parts < ERad.inf)
    (cidx : ℕ) (hpar : cidx % 2 = 0) :
    pureMb c se 0 cidx = 0 := by
  rw [pureMb, assembleM, allWrites, applyWrites_append,
    boundary_fin_miss c se hfin 0 cidx (by omega) (by omega) (by omega)
      (by omega),
    applyWrites_flatMap_miss (loopWrites c se) 0 cidx (c.parts - 1)
      (fun i M0 hi => block_miss c se i 0 cidx (by omega) M0)
      (MInit c.parts)]
  simp [MInit]

theorem pureMb_4_odd (c : MCtx) (se : ℚ) (hfin : c.R c.parts < ERad.inf)
    (cidx : ℕ) (hpar : cidx % 2 = 1) :
    pureMb c se 4 cidx = 0 := by
  rw [pureMb, assembleM, allWrites, applyWrites_append,
    boundary_fin_miss c se hfin 4 cidx (by omega) (by omega) (by omega)
      (by omega),
    applyWrites_flatMap_miss (loopWrites c se) 4 cidx (c.parts - 1)
      (fun i M0 hi => block_miss c se i 4 cidx (by omega) M0)
      (MInit c.parts)]
  simp [MInit]

theorem pureMb_4_last (c : MCtx) (se : ℚ) (hfin : c.R c.parts < ERad.inf) :
    pureMb c se 4 (2 * c.parts - 2) = 0 := by
  rw [pureMb, assembleM, allWrites, applyWrites_append,
    boundary_fin_miss c se hfin 4 (2 * c.parts - 2) (by omega) (by omega)
      (by omega) (by omega),
    applyWrites_flatMap_miss (loopWrites c se) 4 (2 * c.parts - 2)
      (c.parts - 1)
      (fun i M0 hi => block_miss c se i 4 (2 * c.parts - 2) (by omega) M0)
      (MInit c.parts)]
  simp [MInit]

theorem pureMb_0_2i3 (c : MCtx) (se : ℚ) (i : ℕ) (hi : i + 1 < c.parts)
    (hfin : c.R c.parts < ERad.inf) :
    pureMb c se 0 (2 * i + 3) =
      -(iv0 c.env c.nu (c.Cs se (i + 1) * c.Rq (i + 1))) := by
  rw [pureMb, assembleM, allWrites, applyWrites_append,
    boundary_fin_miss c se hfin 0 (2 * i + 3) (by omega) (by omega)
      (by omega) (by omega),
    applyWrites_flatMap_hit (loopWrites c se) 0 (2 * i + 3) i
      (fun M0 M1 => by rw [block_0_2i3, block_0_2i3]) (c.parts - 1)
      (by omega)
      (fun i2 M0 h1 h2 => block_miss c se i2 0 (2 * i + 3) (by omega) M0)
      (MInit c.parts),
    block_0_2i3]

theorem pureMb_1_2i2 (c : MCtx) (se : ℚ) (i : ℕ) (hi : i + 1 < c.parts)
    (hfin : c.R c.parts < ERad.inf) :
    pureMb c se 1 (2 * i + 2) =
      -(kv0 c.env c.nu (c.Cs se (i + 1) * c.Rq (i + 1))) := by
  rw [pureMb, assembleM, allWrites, applyWrites_append,
    boundary_fin_miss c se hfin 1 (2 * i + 2) (by omega) (by omega)
      (by omega) (by omega),
    applyWrites_flatMap_hit (loopWrites c se) 1 (2 * i + 2) i
      (fun M0 M1 => by rw [block_1_2i2, block_1_2i2]) (c.parts - 1)
      (by omega)
      (fun i2 M0 h1 h2 => block_miss c se i2 1 (2 * i + 2) (by omega) M0)
      (MInit c.parts),
    block_1_2i2]

theorem pureMb_1_2i3 (c : MCtx) (se : ℚ) (i : ℕ) (hi : i + 1 < c.parts)
    (hfin : c.R c.parts < ERad.inf) :
    pureMb c se 1 (2 * i + 3) =
      -(iv1 c.env c.nu (c.Cs se (i + 1) * c.Rq (i + 1))) := by
  rw [pureMb, assembleM, allWrites, applyWrites_append,
    boundary_fin_miss c se hfin 1 (2 * i + 3) (by omega) (by omega)
      (by omega) (by omega),
    applyWrites_flatMap_hit (loopWrites c se) 1 (2 * i + 3) i
      (fun M0 M1 => by rw [block_1_2i3, block_1_2i3]) (c.parts - 1)
      (by omega)
      (fun i2 M0 h1 h2 => block_miss c se i2 1 (2 * i + 3) (by omega) M0)
      (MInit c.parts),
    block_1_2i3]

theorem pureMb_2_2i1 (c : MCtx) (se : ℚ) (i : ℕ) (hi : i + 1 < c.parts)
    (hfin : c.R c.parts < ERad.inf) :
    pureMb c se 2 (2 * i + 1) =
      iv0 c.env c.nu (c.Cs se i * c.Rq (i + 1)) := by
  rw [pureMb, assembleM, allWrites, applyWrites_append,
    boundary_fin_miss c se hfin 2 (2 * i + 1) (by omega) (by omega)
      (by omega) (by omega),
    applyWrites_flatMap_hit (loopWrites c se) 2 (2 * i + 1) i
      (fun M0 M1 => by rw [block_2_2i1, block_2_2i1]) (c.parts - 1)
      (by omega)
      (fun i2 M0 h1 h2 => block_miss c se i2 2 (2 * i + 1) (by omega) M0)
      (MInit c.parts),
    block_2_2i1]

theorem pureMb_2_2i2 (c : MCtx) (se : ℚ) (i : ℕ) (hi : i + 1 < c.parts)
    (hfin : c.R c.parts < ERad.inf) :
    pureMb c se 2 (2 * i + 2) =
      kv1 c.env c.nu (c.Cs se (i + 1) * c.Rq (i + 1)) := by
  rw [pureMb, assembleM, allWrites, applyWrites_append,
    boundary_fin_miss c se hfin 2 (2 * i + 2) (by omega) (by omega)
      (by omega) (by omega),
    applyWrites_flatMap_hit (loopWrites c se) 2 (2 * i + 2) i
      (fun M0 M1 => by rw [block_2_2i2, block_2_2i2]) (c.parts - 1)
      (by omega)
      (fun i2 M0 h1 h2 => block_miss c se i2 2 (2 * i + 2) (by omega) M0)
      (MInit c.parts),
    block_2_2i2]

theorem pureMb_3_2i (c : MCtx) (se : ℚ) (i : ℕ) (hi : i + 1 < c.parts)
    (hfin : c.R c.parts < ERad.inf) :
    pureMb c se 3 (2 * i) =
      kv0 c.env c.nu (c.Cs se i * c.Rq (i + 1)) := by
  rw [pureMb, assembleM, allWrites, applyWrites_append,
    boundary_fin_miss c se hfin 3 (2 * i) (by omega) (by omega)
      (by omega) (by omega),
    applyWrites_flatMap_hit (loopWrites c se) 3 (2 * i) i
      (fun M0 M1 => by rw [block_3_2i, block_3_2i]) (c.parts - 1)
      (by omega)
      (fun i2 M0 h1 h2 => block_miss c se i2 3 (2 * i) (by omega) M0)
      (MInit c.parts),
    block_3_2i]

theorem pureMb_3_2i1 (c : MCtx) (se : ℚ) (i : ℕ) (hi : i + 1 < c.parts)
    (hfin : c.R c.parts < ERad.inf) :
    pureMb c se 3 (2 * i + 1) =
      c.tmp i * iv1 c.env c.nu (c.Cs se i * c.Rq (i + 1)) := by
  rw [pureMb, assembleM, allWrites, applyWrites_append,
    boundary_fin_miss c se hfin 3 (2 * i + 1) (by omega) (by omega)
      (by omega) (by omega),
    applyWrites_flatMap_hit (loopWrites c se) 3 (2 * i + 1) i
      (fun M0 M1 => by rw [block_3_2i1, block_3_2i1]) (c.parts - 1)
      (by omega)
      (fun i2 M0 h1 h2 => block_miss c se i2 3 (2 * i + 1) (by omega) M0)
      (MInit c.parts),
    block_3_2i1]

theorem pureMb_4_2i (c : MCtx) (se : ℚ) (i : ℕ) (hi : i + 1 < c.parts)
    (hfin : c.R c.parts < ERad.inf) :
    pureMb c se 4 (2 * i) =
      -(c.tmp i) * kv1 c.env c.nu (c.Cs se i * c.Rq (i + 1)) := by
  rw [pureMb, assembleM, allWrites, applyWrites_append,
    boundary_fin_miss c se hfin 4 (2 * i) (by omega) (by omega)
      (by omega) (by omega),
    applyWrites_flatMap_hit (loopWrites c se) 4 (2 * i) i
      (fun M0 M1 => by rw [block_4_2i, block_4_2i]) (c.parts - 1)
      (by omega)
      (fun i2 M0 h1 h2 => block_miss c se i2 4 (2 * i) (by omega) M0)
      (MInit c.parts),
    block_4_2i]

theorem pureMb_3_lastcol (c : MCtx) (se : ℚ)
    (hfin : c.R c.parts < ERad.inf) (hn : 1 ≤ c.parts) :
    pureMb c se 3 (2 * c.parts - 2) =
      kv0 c.env c.nu (c.Cs se (c.parts - 1) * c.Rq c.parts) := by
  rw [pureMb, assembleM, allWrites, applyWrites_append,
    boundary_hit_3 c se hfin hn]

theorem pureMb_2_lastcol (c : MCtx) (se : ℚ)
    (hfin : c.R c.parts < ERad.inf) :
    pureMb c se 2 (2 * c.parts - 1) =
      iv0 c.env c.nu (c.Cs se (c.parts - 1) * c.Rq c.parts) := by
  rw [pureMb, assembleM, allWrites, applyWrites_append,
    boundary_hit_2 c se hfin]

/-! Entry lemmas for the assembled banded matrix, unbounded aquifer
    (`R_part[-1] = np.inf`): the boundary step erases `Mb[0, -1]` and
    `Mb[1, -1]` instead of writing the outer condition. -/

theorem boundary_inf_miss (c : MCtx) (se : ℚ)
    (hinf : ¬(c.R c.parts < ERad.inf)) (r cidx : ℕ)
    (h1 : ¬(r = 2 ∧ cidx = 0)) (h2 : ¬(r = 1 ∧ cidx = 1))
    (h3 : ¬(r = 0 ∧ cidx = 2 * c.parts - 1))
    (h4 : ¬(r = 1 ∧ cidx = 2 * c.parts - 1)) :
    ∀ M, applyWrites (boundaryWrites c se) M r cidx = M r cidx := by
  intro M
  unfold boundaryWrites
  rw [if_neg hinf]
  by_cases hR0 : ERad.val 0 < c.R 0
  · rw [if_pos hR0]
    simp only [List.cons_append, List.nil_append, applyWrites]
    rw [mset_miss _ _ _ _ _ _ h4, mset_miss _ _ _ _ _ _ h3,
      mset_miss _ _ _ _ _ _ h2, mset_miss _ _ _ _ _ _ h1]
  · rw [if_neg hR0]
    simp only [List.nil_append, applyWrites]
    rw [mset_miss _ _ _ _ _ _ h4, mset_miss _ _ _ _ _ _ h3]

theorem boundary_inf_at_2_0 (c : MCtx) (se : ℚ)
    (hinf : ¬(c.R c.parts < ERad.inf)) :
    ∀ M, applyWrites (boundaryWrites c se) M 2 0 =
      if ERad.val 0 < c.R 0 then
        -(kv1 c.env c.nu (c.Cs se 0 * c.Rq 0))
      else M 2 0 := by
  intro M
  unfold boundaryWrites
  rw [if_neg hinf]
  by_cases hR0 : ERad.val 0 < c.R 0
  · rw [if_pos hR0, if_pos hR0]
    simp only [List.cons_append, List.nil_append, applyWrites]
    rw [mset_miss _ _ _ _ _ _ (by omega), mset_miss _ _ _ _ _ _ (by omega),
      mset_miss _ _ _ _ _ _ (by omega), mset_hit]
  · rw [if_neg hR0, if_neg hR0]
    simp only [List.nil_append, applyWrites]
    rw [mset_miss _ _ _ _ _ _ (by omega), mset_miss _ _ _ _ _ _ (by omega)]

theorem pureMb_inf_at_2_0 (c : MCtx) (se : ℚ)
    (hinf : ¬(c.R c.parts < ERad.inf)) :
    pureMb c se 2 0 =
      if ERad.val 0 < c.R 0 then -(kv1 c.env c.nu (c.Cs se 0 * c.Rq 0))
      else 1 := by
  rw [pureMb, assembleM, allWrites, applyWrites_append,
    boundary_inf_at_2_0 c se hinf,
    applyWrites_flatMap_miss (loopWrites c se) 2 0 (c.parts - 1)
      (fun i M0 hi => block_miss c se i 2 0 (by omega) M0) (MInit c.parts)]
  by_cases hR0 : ERad.val 0 < c.R 0 <;> simp [hR0, MInit]

theorem pureMb_inf_0_even (c : MCtx) (se : ℚ)
    (hinf : ¬(c.R c.parts < ERad.inf)) (hn : 1 ≤ c.parts) (cidx : ℕ)
    (hpar : cidx % 2 = 0) :
    pureMb c se 0 cidx = 0 := by
  rw [pureMb, assembleM, allWrites, applyWrites_append,
    boundary_inf_miss c se hinf 0 cidx (by omega) (by omega) (by omega)
      (by omega),
    applyWrites_flatMap_miss (loopWrites c se) 0 cidx (c.parts - 1)
      (fun i M0 hi => block_miss c se i 0 cidx (by omega) M0)
      (MInit c.parts)]
  simp [MInit]

theorem pureMb_inf_3_2i (c : MCtx) (se : ℚ) (i : ℕ) (hi : i + 1 < c.parts)
    (hinf : ¬(c.R c.parts < ERad.inf)) :
    pureMb c se 3 (2 * i) =
      kv0 c.env c.nu (c.Cs se i * c.Rq (i + 1)) := by
  rw [pureMb, assembleM, allWrites, applyWrites_append,
    boundary_inf_miss c se hinf 3 (2 * i) (by omega) (by omega)
      (by omega) (by omega),
    applyWrites_flatMap_hit (loopWrites c se) 3 (2 * i) i
      (fun M0 M1 => by rw [block_3_2i, block_3_2i]) (c.parts - 1)
      (by omega)
      (fun i2 M0 h1 h2 => block_miss c se i2 3 (2 * i) (by omega) M0)
      (MInit c.parts),
    block_3_2i]

theorem pureMb_inf_1_2i2 (c : MCtx) (se : ℚ) (i : ℕ) (hi : i + 1 < c.parts)
    (hinf : ¬(c.R c.parts < ERad.inf)) :
    pureMb c se 1 (2 * i + 2) =
      -(kv0 c.env c.nu (c.Cs se (i + 1) * c.Rq (i + 1))) := by
  rw [pureMb, assembleM, allWrites, applyWrites_append,
    boundary_inf_miss c se hinf 1 (2 * i + 2) (by omega) (by omega)
      (by omega) (by omega),
    applyWrites_flatMap_hit (loopWrites c se) 1 (2 * i + 2) i
      (fun M0 M1 => by rw [block_1_2i2, block_1_2i2]) (c.parts - 1)
      (by omega)
      (fun i2 M0 h1 h2 => block_miss c se i2 1 (2 * i + 2) (by omega) M0)
      (MInit c.parts),
    block_1_2i2]

theorem pureMb_inf_4_2i (c : MCtx) (se : ℚ) (i : ℕ) (hi : i + 1 < c.parts)
    (hinf : ¬(c.R c.parts < ERad.inf)) :
    pureMb c se 4 (2 * i) =
      -(c.tmp i) * kv1 c.env c.nu (c.Cs se i * c.Rq (i + 1)) := by
  rw [pureMb, assembleM, allWrites, applyWrites_append,
    boundary_inf_miss c se hinf 4 (2 * i) (by omega) (by omega)
      (by omega) (by omega),
    applyWrites_flatMap_hit (loopWrites c se) 4 (2 * i) i
      (fun M0 M1 => by rw [block_4_2i, block_4_2i]) (c.parts - 1)
      (by omega)
      (fun i2 M0 h1 h2 => block_miss c se i2 4 (2 * i) (by omega) M0)
      (MInit c.parts),
    block_4_2i]

theorem pureMb_inf_2_2i2 (c : MCtx) (se : ℚ) (i : ℕ) (hi : i + 1 < c.parts)
    (hinf : ¬(c.R c.parts < ERad.inf)) :
    pureMb c se 2 (2 * i + 2) =
      kv1 c.env c.nu (c.Cs se (i + 1) * c.Rq (i + 1)) := by
  rw [pureMb, assembleM, allWrites, applyWrites_append,
    boundary_inf_miss c se hinf 2 (2 * i + 2) (by omega) (by omega)
      (by omega) (by omega),
    applyWrites_flatMap_hit (loopWrites c se) 2 (2 * i + 2) i
      (fun M0 M1 => by rw [block_2_2i2, block_2_2i2]) (c.parts - 1)
      (by omega)
      (fun i2 M0 h1 h2 => block_miss c se i2 2 (2 * i + 2) (by omega) M0)
      (MInit c.parts),
    block_2_2i2]

theorem pureMb_inf_3_lastcol (c : MCtx) (se : ℚ)
    (hinf : ¬(c.R c.parts < ERad.inf)) :
    pureMb c se 3 (2 * c.parts - 2) = 0 := by
  rw [pureMb, assembleM, allWrites, applyWrites_append,
    boundary_inf_miss c se hinf 3 (2 * c.parts - 2) (by omega) (by omega)
      (by omega) (by omega),
    applyWrites_flatMap_miss (loopWrites c se) 3 (2 * c.parts - 2)
      (c.parts - 1)
      (fun i M0 hi => block_miss c se i 3 (2 * c.parts - 2) (by omega) M0)
      (MInit c.parts)]
  simp [MInit]

/-- Modelled from the spec (pentapy is an external dependency): the dense
    pentadiagonal matrix represented by the flat column-wise banded layout
    (`is_flat=True, index_row_wise=False`), in which band row `r - c + 2`
    of column `c` holds the dense entry at `(r, c)` for `|r - c| <= 2`. -/
def denseOf (M : ℕ → ℕ → ℚ) (n : ℕ) : Matrix (Fin n) (Fin n) ℚ :=
  Matrix.of (fun r cidx =>
    if (cidx : ℕ) ≤ (r : ℕ) + 2 ∧ (r : ℕ) ≤ (cidx : ℕ) + 2 then
      M ((r : ℕ) + 2 - (cidx : ℕ)) (cidx : ℕ)
    else 0)

theorem denseOf_apply (M : ℕ → ℕ → ℚ) (n : ℕ) (r cidx : Fin n) :
    denseOf M n r cidx =
      if (cidx : ℕ) ≤ (r : ℕ) + 2 ∧ (r : ℕ) ≤ (cidx : ℕ) + 2 then
        M ((r : ℕ) + 2 - (cidx : ℕ)) (cidx : ℕ)
      else 0 := rfl

/-- The candidate coefficient vector repeating the single-disk pair. -/
def xrep (A B : ℚ) (j : ℕ) : ℚ := if j % 2 = 0 then A else B

theorem xrep_even (A B : ℚ) (j : ℕ) (h : j % 2 = 0) : xrep A B j = A :=
  if_pos h

theorem xrep_odd (A B : ℚ) (j : ℕ) (h : j % 2 = 1) : xrep A B j = B := by
  unfold xrep
  rw [if_neg (by omega)]

theorem fin_val_mk (n m : ℕ) (h : m < n) : ((⟨m, h⟩ : Fin n) : ℕ) = m := rfl

/-- In a stack of identical disks the repeated single-disk coefficient
    pair solves every interface equation of the banded system exactly. -/
theorem repeated_solves (c : MCtx) (se : ℚ) (A B : ℚ)
    (hn : 2 ≤ c.parts)
    (hfin : c.R c.parts < ERad.inf)
    (hCs : ∀ i, i < c.parts → c.difsr i = c.difsr 0)
    (htmp : ∀ i, i + 1 < c.parts → c.tmp i = 1)
    (hrow0 : pureMb c se 2 0 * A + pureMb c se 1 1 * B = pureV c se 0)
    (hrowN : pureMb c se 3 (2 * c.parts - 2) * A +
      pureMb c se 2 (2 * c.parts - 1) * B = 0) :
    (denseOf (pureMb c se) (2 * c.parts)).mulVec
      (fun j => xrep A B (j : ℕ)) =
      (fun j : Fin (2 * c.parts) => pureV c se (j : ℕ)) := by
  funext r
  simp only [Matrix.mulVec, Matrix.dotProduct]
  obtain ⟨rv, hrv⟩ := r
  have hsplit : rv = 0 ∨ rv = 2 * c.parts - 1 ∨
      (∃ i, i + 1 < c.parts ∧ rv = 2 * i + 1) ∨
      (∃ i, i + 1 < c.parts ∧ rv = 2 * i + 2) := by
    by_cases h0 : rv = 0
    · exact Or.inl h0
    by_cases hl : rv = 2 * c.parts - 1
    · exact Or.inr (Or.inl hl)
    rcases Nat.even_or_odd rv with ⟨i, hi⟩ | ⟨i, hi⟩
    · exact Or.inr (Or.inr (Or.inr ⟨i - 1, by omega, by omega⟩))
    · exact Or.inr (Or.inr (Or.inl ⟨i, by omega, by omega⟩))
  rcases hsplit with h0 | hl | ⟨i, hi, hcase⟩ | ⟨i, hi, hcase⟩
  · subst h0
    have hout : ∀ x : Fin (2 * c.parts), x ≠ ⟨0, by omega⟩ →
        x ≠ ⟨1, by omega⟩ →
        denseOf (pureMb c se) (2 * c.parts) ⟨0, hrv⟩ x *
          xrep A B (x : ℕ) = 0 := by
      intro x hxa hxb
      have ha2 : (x : ℕ) ≠ 0 := fun h => hxa (Fin.ext h)
      have hb2 : (x : ℕ) ≠ 1 := fun h => hxb (Fin.ext h)
      rw [denseOf_apply]
      simp only [fin_val_mk]
      by_cases hw : (x : ℕ) ≤ 0 + 2 ∧ 0 ≤ (x : ℕ) + 2
      · rw [if_pos hw]
        have hx2 : (x : ℕ) = 2 := by omega
        rw [hx2, (by omega : 0 + 2 - 2 = 0),
          pureMb_0_even c se hfin 2 (by omega), zero_mul]
      · rw [if_neg hw, zero_mul]
    rw [sum_support_two _ _ _
      (Fin.ne_of_val_ne (show (0 : ℕ) ≠ 1 from by omega)) hout,
      denseOf_apply, denseOf_apply]
    simp only [fin_val_mk]
    have hc1 : (0 : ℕ) ≤ 0 + 2 ∧ (0 : ℕ) ≤ 0 + 2 := ⟨by omega, by omega⟩
    have hc2 : (1 : ℕ) ≤ 0 + 2 ∧ (0 : ℕ) ≤ 1 + 2 := ⟨by omega, by omega⟩
    rw [if_pos hc1, if_pos hc2, (by omega : 0 + 2 - 0 = 2),
      (by omega : 0 + 2 - 1 = 1), xrep_even A B 0 (by omega),
      xrep_odd A B 1 (by omega)]
    exact hrow0
  · subst hl
    have hout : ∀ x : Fin (2 * c.parts),
        x ≠ ⟨2 * c.parts - 2, by omega⟩ →
        x ≠ ⟨2 * c.parts - 1, by omega⟩ →
        denseOf (pureMb c se) (2 * c.parts) ⟨2 * c.parts - 1, hrv⟩ x *
          xrep A B (x : ℕ) = 0 := by
      intro x hxa hxb
      have ha2 : (x : ℕ) ≠ 2 * c.parts - 2 := fun h => hxa (Fin.ext h)
      have hb2 : (x : ℕ) ≠ 2 * c.parts - 1 := fun h => hxb (Fin.ext h)
      have hxlt : (x : ℕ) < 2 * c.parts := x.isLt
      rw [denseOf_apply]
      simp only [fin_val_mk]
      by_cases hw : (x : ℕ) ≤ 2 * c.parts - 1 + 2 ∧
          2 * c.parts - 1 ≤ (x : ℕ) + 2
      · rw [if_pos hw]
        rw [(by omega : 2 * c.parts - 1 + 2 - (x : ℕ) = 4),
          pureMb_4_odd c se hfin (x : ℕ) (by omega), zero_mul]
      · rw [if_neg hw, zero_mul]
    rw [sum_support_two _ _ _
      (Fin.ne_of_val_ne
        (show 2 * c.parts - 2 ≠ 2 * c.parts - 1 from by omega)) hout,
      denseOf_apply, denseOf_apply]
    simp only [fin_val_mk]
    have hc1 : 2 * c.parts - 2 ≤ 2 * c.parts - 1 + 2 ∧
        2 * c.parts - 1 ≤ 2 * c.parts - 2 + 2 := ⟨by omega, by omega⟩
    have hc2 : 2 * c.parts - 1 ≤ 2 * c.parts - 1 + 2 ∧
        2 * c.parts - 1 ≤ 2 * c.parts - 1 + 2 := ⟨by omega, by omega⟩
    rw [if_pos hc1, if_pos hc2,
      (by omega : 2 * c.parts - 1 + 2 - (2 * c.parts - 2) = 3),
      (by omega : 2 * c.parts - 1 + 2 - (2 * c.parts - 1) = 2),
      xrep_even A B (2 * c.parts - 2) (by omega),
      xrep_odd A B (2 * c.parts - 1) (by omega), hrowN]
    simp only [pureV, vset]
    rw [if_neg (by omega)]
  · subst hcase
    have hout : ∀ x : Fin (2 * c.parts), x ≠ ⟨2 * i, by omega⟩ →
        x ≠ ⟨2 * i + 1, by omega⟩ → x ≠ ⟨2 * i + 2, by omega⟩ →
        x ≠ ⟨2 * i + 3, by omega⟩ →
        denseOf (pureMb c se) (2 * c.parts) ⟨2 * i + 1, hrv⟩ x *
          xrep A B (x : ℕ) = 0 := by
      intro x hxa hxb hxc hxd
      have ha2 : (x : ℕ) ≠ 2 * i := fun h => hxa (Fin.ext h)
      have hb2 : (x : ℕ) ≠ 2 * i + 1 := fun h => hxb (Fin.ext h)
      have hc2 : (x : ℕ) ≠ 2 * i + 2 := fun h => hxc (Fin.ext h)
      have hd2 : (x : ℕ) ≠ 2 * i + 3 := fun h => hxd (Fin.ext h)
      rw [denseOf_apply]
      simp only [fin_val_mk]
      by_cases hw : (x : ℕ) ≤ 2 * i + 1 + 2 ∧ 2 * i + 1 ≤ (x : ℕ) + 2
      · rw [if_pos hw]
        rw [(by omega : 2 * i + 1 + 2 - (x : ℕ) = 4),
          pureMb_4_odd c se hfin (x : ℕ) (by omega), zero_mul]
      · rw [if_neg hw, zero_mul]
    rw [sum_support_four _ _ _ _ _
      (Fin.ne_of_val_ne (show 2 * i ≠ 2 * i + 1 from by omega))
      (Fin.ne_of_val_ne (show 2 * i ≠ 2 * i + 2 from by omega))
      (Fin.ne_of_val_ne (show 2 * i ≠ 2 * i + 3 from by omega))
      (Fin.ne_of_val_ne (show 2 * i + 1 ≠ 2 * i + 2 from by omega))
      (Fin.ne_of_val_ne (show 2 * i + 1 ≠ 2 * i + 3 from by omega))
      (Fin.ne_of_val_ne (show 2 * i + 2 ≠ 2 * i + 3 from by omega))
      hout,
      denseOf_apply, denseOf_apply, denseOf_apply, denseOf_apply]
    simp only [fin_val_mk]
    have hc1 : 2 * i ≤ 2 * i + 1 + 2 ∧ 2 * i + 1 ≤ 2 * i + 2 :=
      ⟨by omega, by omega⟩
    have hc2 : 2 * i + 1 ≤ 2 * i + 1 + 2 ∧ 2 * i + 1 ≤ 2 * i + 1 + 2 :=
      ⟨by omega, by omega⟩
    have hc3 : 2 * i + 2 ≤ 2 * i + 1 + 2 ∧ 2 * i + 1 ≤ 2 * i + 2 + 2 :=
      ⟨by omega, by omega⟩
    have hc4 : 2 * i + 3 ≤ 2 * i + 1 + 2 ∧ 2 * i + 1 ≤ 2 * i + 3 + 2 :=
      ⟨by omega, by omega⟩
    rw [if_pos hc1, if_pos hc2, if_pos hc3, if_pos hc4,
      (by omega : 2 * i + 1 + 2 - 2 * i = 3),
      (by omega : 2 * i + 1 + 2 - (2 * i + 1) = 2),
      (by omega : 2 * i + 1 + 2 - (2 * i + 2) = 1),
      (by omega : 2 * i + 1 + 2 - (2 * i + 3) = 0),
      pureMb_3_2i c se i hi hfin, pureMb_2_2i1 c se i hi hfin,
      pureMb_1_2i2 c se i hi hfin, pureMb_0_2i3 c se i hi hfin,
      xrep_even A B (2 * i) (by omega), xrep_odd A B (2 * i + 1) (by omega),
      xrep_even A B (2 * i + 2) (by omega),
      xrep_odd A B (2 * i + 3) (by omega)]
    have hCsi : c.Cs se (i + 1) = c.Cs se i := by
      rw [MCtx.Cs, MCtx.Cs, hCs (i + 1) (by omega), hCs i (by omega)]
    rw [hCsi]
    simp only [pureV, vset]
    rw [if_neg (by omega)]
    ring
  · subst hcase
    have hout : ∀ x : Fin (2 * c.parts), x ≠ ⟨2 * i, by omega⟩ →
        x ≠ ⟨2 * i + 1, by omega⟩ → x ≠ ⟨2 * i + 2, by omega⟩ →
        x ≠ ⟨2 * i + 3, by omega⟩ →
        denseOf (pureMb c se) (2 * c.parts) ⟨2 * i + 2, hrv⟩ x *
          xrep A B (x : ℕ) = 0 := by
      intro x hxa hxb hxc hxd
      have ha2 : (x : ℕ) ≠ 2 * i := fun h => hxa (Fin.ext h)
      have hb2 : (x : ℕ) ≠ 2 * i + 1 := fun h => hxb (Fin.ext h)
      have hc2 : (x : ℕ) ≠ 2 * i + 2 := fun h => hxc (Fin.ext h)
      have hd2 : (x : ℕ) ≠ 2 * i + 3 := fun h => hxd (Fin.ext h)
      rw [denseOf_apply]
      simp only [fin_val_mk]
      by_cases hw : (x : ℕ) ≤ 2 * i + 2 + 2 ∧ 2 * i + 2 ≤ (x : ℕ) + 2
      · rw [if_pos hw]
        rw [(by omega : 2 * i + 2 + 2 - (x : ℕ) = 0),
          pureMb_0_even c se hfin (x : ℕ) (by omega), zero_mul]
      · rw [if_neg hw, zero_mul]
    rw [sum_support_four _ _ _ _ _
      (Fin.ne_of_val_ne (show 2 * i ≠ 2 * i + 1 from by omega))
      (Fin.ne_of_val_ne (show 2 * i ≠ 2 * i + 2 from by omega))
      (Fin.ne_of_val_ne (show 2 * i ≠ 2 * i + 3 from by omega))
      (Fin.ne_of_val_ne (show 2 * i + 1 ≠ 2 * i + 2 from by omega))
      (Fin.ne_of_val_ne (show 2 * i + 1 ≠ 2 * i + 3 from by omega))
      (Fin.ne_of_val_ne (show 2 * i + 2 ≠ 2 * i + 3 from by omega))
      hout,
      denseOf_apply, denseOf_apply, denseOf_apply, denseOf_apply]
    simp only [fin_val_mk]
    have hc1 : 2 * i ≤ 2 * i + 2 + 2 ∧ 2 * i + 2 ≤ 2 * i + 2 :=
      ⟨by omega, by omega⟩
    have hc2 : 2 * i + 1 ≤ 2 * i + 2 + 2 ∧ 2 * i + 2 ≤ 2 * i + 1 + 2 :=
      ⟨by omega, by omega⟩
    have hc3 : 2 * i + 2 ≤ 2 * i + 2 + 2 ∧ 2 * i + 2 ≤ 2 * i + 2 + 2 :=
      ⟨by omega, by omega⟩
    have hc4 : 2 * i + 3 ≤ 2 * i + 2 + 2 ∧ 2 * i + 2 ≤ 2 * i + 3 + 2 :=
      ⟨by omega, by omega⟩
    rw [if_pos hc1, if_pos hc2, if_pos hc3, if_pos hc4,
      (by omega : 2 * i + 2 + 2 - 2 * i = 4),
      (by omega : 2 * i + 2 + 2 - (2 * i + 1) = 3),
      (by omega : 2 * i + 2 + 2 - (2 * i + 2) = 2),
      (by omega : 2 * i + 2 + 2 - (2 * i + 3) = 1),
      pureMb_4_2i c se i hi hfin, pureMb_3_2i1 c se i hi hfin,
      pureMb_2_2i2 c se i hi hfin, pureMb_1_2i3 c se i hi hfin,
      xrep_even A B (2 * i) (by omega), xrep_odd A B (2 * i + 1) (by omega),
      xrep_even A B (2 * i + 2) (by omega),
      xrep_odd A B (2 * i + 3) (by omega), htmp i hi]
    have hCsi : c.Cs se (i + 1) = c.Cs se i := by
      rw [MCtx.Cs, MCtx.Cs, hCs (i + 1) (by omega), hCs i (by omega)]
    rw [hCsi]
    simp only [pureV, vset]
    rw [if_neg (by omega)]
    ring

/-- In a stack of identical disks over an unbounded aquifer the repeated
    pair `(A, 0)` solves every equation of the banded system exactly: the
    erased outer column is multiplied by the zero entries of the vector,
    and the last row reduces to `X[-1] = 0`. -/
theorem repeated_solves_inf (c : MCtx) (se : ℚ) (A : ℚ)
    (hn : 2 ≤ c.parts)
    (hinf : ¬(c.R c.parts < ERad.inf))
    (hCs : ∀ i, i < c.parts → c.difsr i = c.difsr 0)
    (htmp : ∀ i, i + 1 < c.parts → c.tmp i = 1)
    (hrow0 : pureMb c se 2 0 * A = pureV c se 0) :
    (denseOf (pureMb c se) (2 * c.parts)).mulVec
      (fun j => xrep A 0 (j : ℕ)) =
      (fun j : Fin (2 * c.parts) => pureV c se (j : ℕ)) := by
  funext r
  simp only [Matrix.mulVec, Matrix.dotProduct]
  obtain ⟨rv, hrv⟩ := r
  have hsplit : rv = 0 ∨ rv = 2 * c.parts - 1 ∨
      (∃ i, i + 1 < c.parts ∧ rv = 2 * i + 1) ∨
      (∃ i, i + 1 < c.parts ∧ rv = 2 * i + 2) := by
    by_cases h0 : rv = 0
    · exact Or.inl h0
    by_cases hl : rv = 2 * c.parts - 1
    · exact Or.inr (Or.inl hl)
    rcases Nat.even_or_odd rv with ⟨i, hi⟩ | ⟨i, hi⟩
    · exact Or.inr (Or.inr (Or.inr ⟨i - 1, by omega, by omega⟩))
    · exact Or.inr (Or.inr (Or.inl ⟨i, by omega, by omega⟩))
  rcases hsplit with h0 | hl | ⟨i, hi, hcase⟩ | ⟨i, hi, hcase⟩
  · subst h0
    have hout : ∀ x : Fin (2 * c.parts), x ≠ ⟨0, by omega⟩ →
        x ≠ ⟨1, by omega⟩ →
        denseOf (pureMb c se) (2 * c.parts) ⟨0, hrv⟩ x *
          xrep A 0 (x : ℕ) = 0 := by
      intro x hxa hxb
      have ha2 : (x : ℕ) ≠ 0 := fun h => hxa (Fin.ext h)
      have hb2 : (x : ℕ) ≠ 1 := fun h => hxb (Fin.ext h)
      by_cases hodd : (x : ℕ) % 2 = 1
      · rw [xrep_odd A 0 _ hodd, mul_zero]
      · rw [denseOf_apply]
        simp only [fin_val_mk]
        by_cases hw : (x : ℕ) ≤ 0 + 2 ∧ 0 ≤ (x : ℕ) + 2
        · rw [if_pos hw, (by omega : 0 + 2 - (x : ℕ) = 0),
            pureMb_inf_0_even c se hinf (by omega) (x : ℕ) (by omega),
            zero_mul]
        · rw [if_neg hw, zero_mul]
    rw [sum_support_two _ _ _
      (Fin.ne_of_val_ne (show (0 : ℕ) ≠ 1 from by omega)) hout,
      denseOf_apply, denseOf_apply]
    simp only [fin_val_mk]
    have hc1 : (0 : ℕ) ≤ 0 + 2 ∧ (0 : ℕ) ≤ 0 + 2 := ⟨by omega, by omega⟩
    rw [if_pos hc1, (by omega : 0 + 2 - 0 = 2), xrep_even A 0 0 (by omega),
      xrep_odd A 0 1 (by omega), mul_zero, add_zero]
    exact hrow0
  · subst hl
    have hout : ∀ x : Fin (2 * c.parts),
        x ≠ ⟨2 * c.parts - 2, by omega⟩ →
        x ≠ ⟨2 * c.parts - 1, by omega⟩ →
        denseOf (pureMb c se) (2 * c.parts) ⟨2 * c.parts - 1, hrv⟩ x *
          xrep A 0 (x : ℕ) = 0 := by
      intro x hxa hxb
      have ha2 : (x : ℕ) ≠ 2 * c.parts - 2 := fun h => hxa (Fin.ext h)
      have hb2 : (x : ℕ) ≠ 2 * c.parts - 1 := fun h => hxb (Fin.ext h)
      have hxlt : (x : ℕ) < 2 * c.parts := x.isLt
      by_cases hodd : (x : ℕ) % 2 = 1
      · rw [xrep_odd A 0 _ hodd, mul_zero]
      · rw [denseOf_apply]
        simp only [fin_val_mk]
        by_cases hw : (x : ℕ) ≤ 2 * c.parts - 1 + 2 ∧
            2 * c.parts - 1 ≤ (x : ℕ) + 2
        · exact absurd hw (by omega)
        · rw [if_neg hw, zero_mul]
    rw [sum_support_two _ _ _
      (Fin.ne_of_val_ne
        (show 2 * c.parts - 2 ≠ 2 * c.parts - 1 from by omega)) hout,
      denseOf_apply, denseOf_apply]
    simp only [fin_val_mk]
    have hc1 : 2 * c.parts - 2 ≤ 2 * c.parts - 1 + 2 ∧
        2 * c.parts - 1 ≤ 2 * c.parts - 2 + 2 := ⟨by omega, by omega⟩
    rw [if_pos hc1,
      (by omega : 2 * c.parts - 1 + 2 - (2 * c.parts - 2) = 3),
      pureMb_inf_3_lastcol c se hinf,
      xrep_odd A 0 (2 * c.parts - 1) (by omega), mul_zero, add_zero,
      zero_mul]
    simp only [pureV, vset]
    rw [if_neg (by omega)]
  · subst hcase
    have hout : ∀ x : Fin (2 * c.parts), x ≠ ⟨2 * i, by omega⟩ →
        x ≠ ⟨2 * i + 2, by omega⟩ →
        denseOf (pureMb c se) (2 * c.parts) ⟨2 * i + 1, hrv⟩ x *
          xrep A 0 (x : ℕ) = 0 := by
      intro x hxa hxc
      have ha2 : (x : ℕ) ≠ 2 * i := fun h => hxa (Fin.ext h)
      have hc2 : (x : ℕ) ≠ 2 * i + 2 := fun h => hxc (Fin.ext h)
      by_cases hodd : (x : ℕ) % 2 = 1
      · rw [xrep_odd A 0 _ hodd, mul_zero]
      · rw [denseOf_apply]
        simp only [fin_val_mk]
        by_cases hw : (x : ℕ) ≤ 2 * i + 1 + 2 ∧ 2 * i + 1 ≤ (x : ℕ) + 2
        · exact absurd hw (by omega)
        · rw [if_neg hw, zero_mul]
    rw [sum_support_two _ _ _
      (Fin.ne_of_val_ne (show 2 * i ≠ 2 * i + 2 from by omega)) hout,
      denseOf_apply, denseOf_apply]
    simp only [fin_val_mk]
    have hc1 : 2 * i ≤ 2 * i + 1 + 2 ∧ 2 * i + 1 ≤ 2 * i + 2 :=
      ⟨by omega, by omega⟩
    have hc3 : 2 * i + 2 ≤ 2 * i + 1 + 2 ∧ 2 * i + 1 ≤ 2 * i + 2 + 2 :=
      ⟨by omega, by omega⟩
    rw [if_pos hc1, if_pos hc3,
      (by omega : 2 * i + 1 + 2 - 2 * i = 3),
      (by omega : 2 * i + 1 + 2 - (2 * i + 2) = 1),
      pureMb_inf_3_2i c se i hi hinf, pureMb_inf_1_2i2 c se i hi hinf,
      xrep_even A 0 (2 * i) (by omega),
      xrep_even A 0 (2 * i + 2) (by omega)]
    have hCsi : c.Cs se (i + 1) = c.Cs se i := by
      rw [MCtx.Cs, MCtx.Cs, hCs (i + 1) (by omega), hCs i (by omega)]
    rw [hCsi]
    simp only [pureV, vset]
    rw [if_neg (by omega)]
    ring
  · subst hcase
    have hout : ∀ x : Fin (2 * c.parts), x ≠ ⟨2 * i, by omega⟩ →
        x ≠ ⟨2 * i + 2, by omega⟩ →
        denseOf (pureMb c se) (2 * c.parts) ⟨2 * i + 2, hrv⟩ x *
          xrep A 0 (x : ℕ) = 0 := by
      intro x hxa hxc
      have ha2 : (x : ℕ) ≠ 2 * i := fun h => hxa (Fin.ext h)
      have hc2 : (x : ℕ) ≠ 2 * i + 2 := fun h => hxc (Fin.ext h)
      by_cases hodd : (x : ℕ) % 2 = 1
      · rw [xrep_odd A 0 _ hodd, mul_zero]
      · rw [denseOf_apply]
        simp only [fin_val_mk]
        by_cases hw : (x : ℕ) ≤ 2 * i + 2 + 2 ∧ 2 * i + 2 ≤ (x : ℕ) + 2
        · rw [if_pos hw, (by omega : 2 * i + 2 + 2 - (x : ℕ) = 0),
            pureMb_inf_0_even c se hinf (by omega) (x : ℕ) (by omega),
            zero_mul]
        · rw [if_neg hw, zero_mul]
    rw [sum_support_two _ _ _
      (Fin.ne_of_val_ne (show 2 * i ≠ 2 * i + 2 from by omega)) hout,
      denseOf_apply, denseOf_apply]
    simp only [fin_val_mk]
    have hc1 : 2 * i ≤ 2 * i + 2 + 2 ∧ 2 * i + 2 ≤ 2 * i + 2 :=
      ⟨by omega, by omega⟩
    have hc3 : 2 * i + 2 ≤ 2 * i + 2 + 2 ∧ 2 * i + 2 ≤ 2 * i + 2 + 2 :=
      ⟨by omega, by omega⟩
    rw [if_pos hc1, if_pos hc3,
      (by omega : 2 * i + 2 + 2 - 2 * i = 4),
      (by omega : 2 * i + 2 + 2 - (2 * i + 2) = 2),
      pureMb_inf_4_2i c se i hi hinf, pureMb_inf_2_2i2 c se i hi hinf,
      xrep_even A 0 (2 * i) (by omega),
      xrep_even A 0 (2 * i + 2) (by omega), htmp i hi]
    have hCsi : c.Cs se (i + 1) = c.Cs se i := by
      rw [MCtx.Cs, MCtx.Cs, hCs (i + 1) (by omega), hCs i (by omega)]
    rw [hCsi]
    simp only [pureV, vset]
    rw [if_neg (by omega)]
    ring

/-- All facts recorded by a passing validation, beyond the length and
    sortedness facts of `validate_none_facts`. -/
theorem validate_none_checks {rad S_part K_part : List ℚ}
    {R_part : List ERad} {dim lat_ext kw : ℚ}
    (h : validate rad S_part K_part R_part dim lat_ext kw = none) :
    ¬(R_part.headD (ERad.val 0) < ERad.val 0) ∧
    (∀ con ∈ K_part, 0 < con) ∧ (∀ stor ∈ S_part, 0 < stor) ∧
    (0 < dim ∧ dim ≤ 3) ∧ 0 < lat_ext ∧ 0 < kw ∧
    (∃ mn mx, rad.min? = some mn ∧ rad.max? = some mx ∧
      R_part.headD (ERad.val 0) < ERad.val mn ∧
      ¬(R_part.getLastD ERad.inf < ERad.val mx)) := by
  unfold validate at h
  by_cases h1 : ¬((R_part.length : ℤ) - 1 = S_part.length ∧
      S_part.length = K_part.length ∧ 0 < K_part.length)
  · rw [if_pos h1] at h
    exact absurd h (by simp)
  · rw [if_neg h1] at h
    by_cases h2 : R_part.headD (ERad.val 0) < ERad.val 0
    · rw [if_pos h2] at h
      exact absurd h (by simp)
    · rw [if_neg h2] at h
      by_cases h3 : ¬(∀ p ∈ R_part.zip R_part.tail, p.1 < p.2)
      · rw [if_pos h3] at h
        exact absurd h (by simp)
      · rw [if_neg h3] at h
        cases hmn : rad.min? with
        | none => rw [hmn] at h; exact absurd h (by simp)
        | some mn =>
          cases hmx : rad.max? with
          | none => rw [hmn, hmx] at h; exact absurd h (by simp)
          | some mx =>
            simp only [hmn, hmx] at h
            by_cases h4 : ¬(R_part.headD (ERad.val 0) < ERad.val mn) ∨
                R_part.getLastD ERad.inf < ERad.val mx
            · rw [if_pos h4] at h
              exact absurd h (by simp)
            · rw [if_neg h4] at h
              push_neg at h4
              by_cases h5 : ¬(∀ con ∈ K_part, 0 < con)
              · rw [if_pos h5] at h
                exact absurd h (by simp)
              · rw [if_neg h5] at h
                by_cases h6 : ¬(∀ stor ∈ S_part, 0 < stor)
                · rw [if_pos h6] at h
                  exact absurd h (by simp)
                · rw [if_neg h6] at h
                  by_cases h7 : ¬(0 < dim) ∨ 3 < dim
                  · rw [if_pos h7] at h
                    exact absurd h (by simp)
                  · rw [if_neg h7] at h
                    push_neg at h7
                    by_cases h8 : ¬(0 < lat_ext)
                    · rw [if_pos h8] at h
                      exact absurd h (by simp)
                    · rw [if_neg h8] at h
                      by_cases h9 : ¬(0 < kw)
                      · rw [if_pos h9] at h
                        exact absurd h (by simp)
                      · exact ⟨h2, not_not.1 h5, not_not.1 h6,
                          ⟨h7.1, h7.2⟩, not_not.1 h8, not_not.1 h9,
                          mn, mx, rfl, rfl, h4.1, h4.2⟩

/-- A passing multi-disk validation implies a passing validation of the
    collapsed single-disk call with the same radii of interest. -/
theorem validate_single_of_multi {rad S_part K_part : List ℚ}
    {R_part : List ERad} {dim lat_ext kw : ℚ} {n : ℕ} {K0 S0 : ℚ}
    (hK : K_part = List.replicate n K0) (hS : S_part = List.replicate n S0)
    (hn : 1 ≤ n) (hlen : R_part.length = n + 1)
    (h : validate rad S_part K_part R_part dim lat_ext kw = none) :
    validate rad [S0] [K0]
      [R_part.headD (ERad.val 0), R_part.getLastD ERad.inf] dim lat_ext kw
      = none := by
  obtain ⟨hhead, hKpos, hSpos, hdim, hlat, hkwp, mn, mx, hmn, hmx, hmnlt,
    hmxle⟩ := validate_none_checks h
  have hsorted := (validate_none_facts h).2
  have hK0pos : 0 < K0 := by
    refine hKpos K0 ?_
    rw [hK]
    exact List.mem_replicate.2 ⟨by omega, rfl⟩
  have hS0pos : 0 < S0 := by
    refine hSpos S0 ?_
    rw [hS]
    exact List.mem_replicate.2 ⟨by omega, rfl⟩
  have hhead0 : R_part.headD (ERad.val 0) = R_part.getD 0 ERad.inf := by
    cases R_part with
    | nil => simp at hlen
    | cons a l => rfl
  have hlast0 : R_part.getLastD ERad.inf = R_part.getD n ERad.inf := by
    rw [getLastD_eq_getD, hlen, Nat.add_sub_cancel]
  have hR0Rl : R_part.headD (ERad.val 0) < R_part.getLastD ERad.inf := by
    rw [hhead0, hlast0]
    exact sorted_getD_lt hsorted n 0 (by omega) (by omega)
  have hd3 : ¬(3 < dim) := not_lt.2 hdim.2
  have hhead2 : ¬R_part.head?.getD (ERad.val 0) < ERad.val 0 := by
    simpa using hhead
  have hR0Rl2 : R_part.head?.getD (ERad.val 0) <
      R_part.getLast?.getD ERad.inf := by
    simpa using hR0Rl
  have hmnlt2 : R_part.head?.getD (ERad.val 0) < ERad.val mn := by
    simpa using hmnlt
  have hmxle2 : ¬R_part.getLast?.getD ERad.inf < ERad.val mx := by
    simpa using hmxle
  norm_num [validate, hhead2, hR0Rl2, hmn, hmx, hmnlt2, hmxle2, hK0pos,
    hS0pos, hdim.1, hd3, hlat, hkwp]

/-- One transform variable of the identical-disk stack: the multi-disk
    iteration's result row equals the single-disk path's row, given the
    abstract solver facts (pentapy solution solves the banded system, the
    system is nonsingular) and an untruncated conditioning guard. -/
theorem C5_row_eq (c : MCtx) (se : ℚ) (K0 S0 RNv A B : ℚ) (xs : List ℚ)
    (hn : 2 ≤ c.parts)
    (hK : c.K_part = List.replicate c.parts K0)
    (hS : c.S_part = List.replicate c.parts S0)
    (hlen : c.R_part.length = c.parts + 1)
    (hfinv : c.R_part.getLastD ERad.inf = ERad.val RNv)
    (hrad : ∀ r ∈ c.rad, c.R_part.headD (ERad.val 0) < ERad.val r ∧
      ¬(c.R_part.getLastD ERad.inf < ERad.val r))
    (hd : c.env.sqrt (S0 / K0) ≠ 0)
    (hK0 : K0 ≠ 0)
    (hfirst : pureFirst c se = c.parts)
    (hsolve : solve2
      (singleM c.env c.nu (c.R_part.headD (ERad.val 0))
        (c.R_part.getLastD ERad.inf)
        (c.env.sqrt se * c.env.sqrt (S0 / K0))).1
      (singleM c.env c.nu (c.R_part.headD (ERad.val 0))
        (c.R_part.getLastD ERad.inf)
        (c.env.sqrt se * c.env.sqrt (S0 / K0))).2.1
      (singleM c.env c.nu (c.R_part.headD (ERad.val 0))
        (c.R_part.getLastD ERad.inf)
        (c.env.sqrt se * c.env.sqrt (S0 / K0))).2.2.1
      (singleM c.env c.nu (c.R_part.headD (ERad.val 0))
        (c.R_part.getLastD ERad.inf)
        (c.env.sqrt se * c.env.sqrt (S0 / K0))).2.2.2
      (QsOf c.env c.nu (c.env.sqrt (S0 / K0))
        (c.R_part.headD (ERad.val 0)) se) 0 = some (A, B))
    (hcA : ¬(|A| < c.cut)) (hcB : ¬(|B| < c.cut))
    (hps : c.env.psolve (bandRows (pureMb c se) (2 * c.parts))
      ((List.range (2 * c.parts)).map (pureV c se)) = some xs)
    (hsound : (denseOf (pureMb c se) (2 * c.parts)).mulVec
      (fun j => xs.getD (j : ℕ) 0) =
      (fun j : Fin (2 * c.parts) => pureV c se (j : ℕ)))
    (hdet : (denseOf (pureMb c se) (2 * c.parts)).det ≠ 0) :
    singleRow c.env c.nu (c.R_part.headD (ERad.val 0))
      (c.R_part.getLastD ERad.inf) (c.env.sqrt (S0 / K0)) c.rad
      (QsOf c.env c.nu (c.env.sqrt (S0 / K0))
        (c.R_part.headD (ERad.val 0)) se) se = .ok (pureRow c se) := by
  have hdif : ∀ i, i < c.parts → c.difsr i = c.env.sqrt (S0 / K0) := by
    intro i hi
    rw [MCtx.difsr, hS, hK, getD_replicate S0 0 c.parts i hi,
      getD_replicate K0 0 c.parts i hi]
  have hCs : ∀ i, i < c.parts → c.difsr i = c.difsr 0 := by
    intro i hi
    rw [hdif i hi, hdif 0 (by omega)]
  have htmp : ∀ i, i + 1 < c.parts → c.tmp i = 1 := by
    intro i hi
    rw [MCtx.tmp, MCtx.Kfrac, hK, getD_replicate K0 0 c.parts i (by omega),
      getD_replicate K0 0 c.parts (i + 1) (by omega), hdif i (by omega),
      hdif (i + 1) (by omega)]
    field_simp
  have hRn : c.R c.parts = ERad.val RNv := by
    rw [MCtx.R, ← hfinv, getLastD_eq_getD, hlen, Nat.add_sub_cancel]
  have hfin : c.R c.parts < ERad.inf := by
    rw [hRn]
    exact ERad.val_lt_inf
  have hR0c : c.R 0 = c.R_part.headD (ERad.val 0) := by
    cases hcR : c.R_part with
    | nil => rw [hcR] at hlen; simp at hlen
    | cons a l => rw [MCtx.R, hcR]; rfl
  have hRq0 : c.Rq 0 = (c.R_part.headD (ERad.val 0)).q := by
    rw [MCtx.Rq, hR0c]
  have hCs0 : c.Cs se 0 = c.env.sqrt se * c.env.sqrt (S0 / K0) := by
    rw [MCtx.Cs, hdif 0 (by omega)]
  have hm20 : pureMb c se 2 0 =
      (if ERad.val 0 < c.R_part.headD (ERad.val 0) then
        -(kv1 c.env c.nu (c.env.sqrt se * c.env.sqrt (S0 / K0) *
          (c.R_part.headD (ERad.val 0)).q))
      else 1) := by
    rw [pureMb_at_2_0 c se hfin (by omega), hR0c, hRq0, hCs0]
  have hm11 : pureMb c se 1 1 =
      (if ERad.val 0 < c.R_part.headD (ERad.val 0) then
        iv1 c.env c.nu (c.env.sqrt se * c.env.sqrt (S0 / K0) *
          (c.R_part.headD (ERad.val 0)).q)
      else 0) := by
    rw [pureMb_at_1_1 c se hfin (by omega), hR0c, hRq0, hCs0]
  rw [hfinv] at hsolve
  have heqs : pureMb c se 2 0 * A + pureMb c se 1 1 * B =
      QsOf c.env c.nu (c.env.sqrt (S0 / K0))
        (c.R_part.headD (ERad.val 0)) se ∧
      kv0 c.env c.nu (c.env.sqrt se * c.env.sqrt (S0 / K0) * RNv) * A +
      iv0 c.env c.nu (c.env.sqrt se * c.env.sqrt (S0 / K0) * RNv) * B
        = 0 := by
    have hs2 := solve2_sound hsolve
    by_cases hR0p : ERad.val 0 < c.R_part.headD (ERad.val 0)
    · simp only [singleM, if_pos ERad.val_lt_inf, if_pos hR0p] at hs2
      rw [hm20, hm11, if_pos hR0p, if_pos hR0p]
      exact hs2
    · simp only [singleM, if_neg hR0p, if_pos ERad.val_lt_inf] at hs2
      rw [hm20, hm11, if_neg hR0p, if_neg hR0p]
      exact hs2
  have hpureV0 : pureV c se 0 =
      QsOf c.env c.nu (c.env.sqrt (S0 / K0))
        (c.R_part.headD (ERad.val 0)) se := by
    simp only [pureV, vset, if_pos rfl, if_true]
    rw [hdif 0 (by omega), hR0c]
  have hrow0 : pureMb c se 2 0 * A + pureMb c se 1 1 * B =
      pureV c se 0 := by
    rw [hpureV0]
    exact heqs.1
  have hCsl : c.Cs se (c.parts - 1) =
      c.env.sqrt se * c.env.sqrt (S0 / K0) := by
    rw [MCtx.Cs, hdif _ (by omega)]
  have hRql : c.Rq c.parts = RNv := by
    rw [MCtx.Rq, hRn]
    rfl
  have hrowN : pureMb c se 3 (2 * c.parts - 2) * A +
      pureMb c se 2 (2 * c.parts - 1) * B = 0 := by
    rw [pureMb_3_lastcol c se hfin (by omega), pureMb_2_lastcol c se hfin,
      hCsl, hRql]
    exact heqs.2
  have hX : pureX c se =
      fun j => if j < 2 * c.parts then xs.getD j 0 else 0 := by
    rw [pureX_eq, hfirst]
    simp only [solveX]
    rw [if_neg (show ¬(c.parts ≤ 1) from by omega),
      if_neg (lt_irrefl c.parts), hps]
    funext j
    by_cases hj : j < 2 * c.parts
    · simp [hj]
    · simp [hj]
  have hinj : Function.Injective
      (denseOf (pureMb c se) (2 * c.parts)).mulVec :=
    Matrix.mulVec_injective_iff_isUnit.2
      ((Matrix.isUnit_iff_isUnit_det _).2 (isUnit_iff_ne_zero.2 hdet))
  have hrep := repeated_solves c se A B hn hfin hCs htmp hrow0 hrowN
  have hvec : (fun j : Fin (2 * c.parts) => xs.getD (j : ℕ) 0) =
      (fun j : Fin (2 * c.parts) => xrep A B (j : ℕ)) :=
    hinj (hsound.trans hrep.symm)
  have hxs : ∀ j, j < 2 * c.parts → xs.getD j 0 = xrep A B j :=
    fun j hj => congrFun hvec ⟨j, hj⟩
  rw [hfinv]
  simp only [singleRow, hsolve]
  rw [pureRow_eq]
  simp only [rowEval]
  refine congrArg Except.ok (List.map_congr_left ?_)
  intro re hre
  obtain ⟨hgt, hle⟩ := hrad re hre
  rw [hfinv] at hle
  have hgetn : c.R_part.getD c.parts ERad.inf = ERad.val RNv := hRn
  have hfalse : (fun R => decide (R < ERad.val re))
      (c.R_part.getD c.parts ERad.inf) = false := by
    rw [hgetn]
    simp only [decide_eq_false_iff_not]
    exact hle
  have hcnt := @countP_lt_length_of_false c.R_part
    (fun R => decide (R < ERad.val re)) c.parts
    (show c.parts < c.R_part.length from by omega) hfalse
  have hpos : c.pos re < c.parts := by
    rw [MCtx.pos]
    rw [hlen] at hcnt
    omega
  have hXa : pureX c se (2 * c.pos re) = A := by
    have h1 : pureX c se (2 * c.pos re) =
        (if 2 * c.pos re < 2 * c.parts then xs.getD (2 * c.pos re) 0
         else 0) := by
      rw [hX]
    rw [h1, if_pos (by omega), hxs _ (by omega)]
    exact xrep_even A B _ (by omega)
  have hXb : pureX c se (2 * c.pos re + 1) = B := by
    have h1 : pureX c se (2 * c.pos re + 1) =
        (if 2 * c.pos re + 1 < 2 * c.parts then
          xs.getD (2 * c.pos re + 1) 0
         else 0) := by
      rw [hX]
    rw [h1, if_pos (by omega), hxs _ (by omega)]
    exact xrep_odd A B _ (by omega)
  have hCsp : c.Cs se (c.pos re) =
      c.env.sqrt se * c.env.sqrt (S0 / K0) := by
    rw [MCtx.Cs, hdif _ hpos]
  simp only [headAt]
  rw [hXa, hXb, if_neg hcA, if_neg hcB, hCsp]
  by_cases hrelt : ERad.val re < ERad.val RNv
  · rw [if_pos hrelt]
  · rw [if_neg hrelt]
    have h1 : RNv ≤ re :=
      not_lt.1 (fun h => hrelt (ERad.val_lt_val.2 h))
    have h2 : re ≤ RNv :=
      not_lt.1 (fun h => hle (ERad.val_lt_val.2 h))
    have hree : re = RNv := le_antisymm h2 h1
    rw [hree]
    have hz : A * kv0 c.env c.nu
        (c.env.sqrt se * c.env.sqrt (S0 / K0) * RNv) +
        B * iv0 c.env c.nu
        (c.env.sqrt se * c.env.sqrt (S0 / K0) * RNv) = 0 := by
      linear_combination heqs.2
    rw [hz, mul_zero]

/-- One transform variable of the identical-disk stack over an unbounded
    aquifer (`R_part[-1] = np.inf`): the multi-disk iteration's result row
    equals the single-disk path's row.  The single-disk system forces
    `Bs = 0` (`M[0,1] = 0` override), so no cut-off condition on the
    second coefficient is needed. -/
theorem C5_row_eq_inf (c : MCtx) (se : ℚ) (K0 S0 A B : ℚ) (xs : List ℚ)
    (hn : 2 ≤ c.parts)
    (hK : c.K_part = List.replicate c.parts K0)
    (hS : c.S_part = List.replicate c.parts S0)
    (hlen : c.R_part.length = c.parts + 1)
    (hinfv : c.R_part.getLastD ERad.inf = ERad.inf)
    (hrad : ∀ r ∈ c.rad, c.R_part.headD (ERad.val 0) < ERad.val r ∧
      ¬(c.R_part.getLastD ERad.inf < ERad.val r))
    (hd : c.env.sqrt (S0 / K0) ≠ 0)
    (hK0 : K0 ≠ 0)
    (hfirst : pureFirst c se = c.parts)
    (hsolve : solve2
      (singleM c.env c.nu (c.R_part.headD (ERad.val 0))
        (c.R_part.getLastD ERad.inf)
        (c.env.sqrt se * c.env.sqrt (S0 / K0))).1
      (singleM c.env c.nu (c.R_part.headD (ERad.val 0))
        (c.R_part.getLastD ERad.inf)
        (c.env.sqrt se * c.env.sqrt (S0 / K0))).2.1
      (singleM c.env c.nu (c.R_part.headD (ERad.val 0))
        (c.R_part.getLastD ERad.inf)
        (c.env.sqrt se * c.env.sqrt (S0 / K0))).2.2.1
      (singleM c.env c.nu (c.R_part.headD (ERad.val 0))
        (c.R_part.getLastD ERad.inf)
        (c.env.sqrt se * c.env.sqrt (S0 / K0))).2.2.2
      (QsOf c.env c.nu (c.env.sqrt (S0 / K0))
        (c.R_part.headD (ERad.val 0)) se) 0 = some (A, B))
    (hcA : ¬(|A| < c.cut))
    (hps : c.env.psolve (bandRows (pureMb c se) (2 * c.parts))
      ((List.range (2 * c.parts)).map (pureV c se)) = some xs)
    (hsound : (denseOf (pureMb c se) (2 * c.parts)).mulVec
      (fun j => xs.getD (j : ℕ) 0) =
      (fun j : Fin (2 * c.parts) => pureV c se (j : ℕ)))
    (hdet : (denseOf (pureMb c se) (2 * c.parts)).det ≠ 0) :
    singleRow c.env c.nu (c.R_part.headD (ERad.val 0))
      (c.R_part.getLastD ERad.inf) (c.env.sqrt (S0 / K0)) c.rad
      (QsOf c.env c.nu (c.env.sqrt (S0 / K0))
        (c.R_part.headD (ERad.val 0)) se) se = .ok (pureRow c se) := by
  have hdif : ∀ i, i < c.parts → c.difsr i = c.env.sqrt (S0 / K0) := by
    intro i hi
    rw [MCtx.difsr, hS, hK, getD_replicate S0 0 c.parts i hi,
      getD_replicate K0 0 c.parts i hi]
  have hCs : ∀ i, i < c.parts → c.difsr i = c.difsr 0 := by
    intro i hi
    rw [hdif i hi, hdif 0 (by omega)]
  have htmp : ∀ i, i + 1 < c.parts → c.tmp i = 1 := by
    intro i hi
    rw [MCtx.tmp, MCtx.Kfrac, hK, getD_replicate K0 0 c.parts i (by omega),
      getD_replicate K0 0 c.parts (i + 1) (by omega), hdif i (by omega),
      hdif (i + 1) (by omega)]
    field_simp
  have hRn : c.R c.parts = ERad.inf := by
    rw [MCtx.R]
    have h2 := getLastD_eq_getD c.R_part ERad.inf
    rw [hlen, Nat.add_sub_cancel] at h2
    rw [← h2]
    exact hinfv
  have hinf : ¬(c.R c.parts < ERad.inf) := by
    rw [hRn]
    exact ERad.not_inf_lt
  have hR0c : c.R 0 = c.R_part.headD (ERad.val 0) := by
    cases hcR : c.R_part with
    | nil => rw [hcR] at hlen; simp at hlen
    | cons a l => rw [MCtx.R, hcR]; rfl
  have hRq0 : c.Rq 0 = (c.R_part.headD (ERad.val 0)).q := by
    rw [MCtx.Rq, hR0c]
  have hCs0 : c.Cs se 0 = c.env.sqrt se * c.env.sqrt (S0 / K0) := by
    rw [MCtx.Cs, hdif 0 (by omega)]
  have hm20 : pureMb c se 2 0 =
      (if ERad.val 0 < c.R_part.headD (ERad.val 0) then
        -(kv1 c.env c.nu (c.env.sqrt se * c.env.sqrt (S0 / K0) *
          (c.R_part.headD (ERad.val 0)).q))
      else 1) := by
    rw [pureMb_inf_at_2_0 c se hinf, hR0c, hRq0, hCs0]
  rw [hinfv] at hsolve
  have heqs : pureMb c se 2 0 * A =
      QsOf c.env c.nu (c.env.sqrt (S0 / K0))
        (c.R_part.headD (ERad.val 0)) se ∧ B = 0 := by
    have hs2 := solve2_sound hsolve
    by_cases hR0p : ERad.val 0 < c.R_part.headD (ERad.val 0)
    · simp only [singleM, if_neg ERad.not_inf_lt, if_pos hR0p] at hs2
      rw [hm20, if_pos hR0p]
      exact ⟨by linear_combination hs2.1, by linear_combination hs2.2⟩
    · simp only [singleM, if_neg ERad.not_inf_lt, if_neg hR0p] at hs2
      rw [hm20, if_neg hR0p]
      exact ⟨by linear_combination hs2.1, by linear_combination hs2.2⟩
  have hpureV0 : pureV c se 0 =
      QsOf c.env c.nu (c.env.sqrt (S0 / K0))
        (c.R_part.headD (ERad.val 0)) se := by
    simp only [pureV, vset, if_pos rfl, if_true]
    rw [hdif 0 (by omega), hR0c]
  have hrow0 : pureMb c se 2 0 * A = pureV c se 0 := by
    rw [hpureV0]
    exact heqs.1
  have hX : pureX c se =
      fun j => if j < 2 * c.parts then xs.getD j 0 else 0 := by
    rw [pureX_eq, hfirst]
    simp only [solveX]
    rw [if_neg (show ¬(c.parts ≤ 1) from by omega),
      if_neg (lt_irrefl c.parts), hps]
    funext j
    by_cases hj : j < 2 * c.parts
    · simp [hj]
    · simp [hj]
  have hinj : Function.Injective
      (denseOf (pureMb c se) (2 * c.parts)).mulVec :=
    Matrix.mulVec_injective_iff_isUnit.2
      ((Matrix.isUnit_iff_isUnit_det _).2 (isUnit_iff_ne_zero.2 hdet))
  have hrep := repeated_solves_inf c se A hn hinf hCs htmp hrow0
  have hvec : (fun j : Fin (2 * c.parts) => xs.getD (j : ℕ) 0) =
      (fun j : Fin (2 * c.parts) => xrep A 0 (j : ℕ)) :=
    hinj (hsound.trans hrep.symm)
  have hxs : ∀ j, j < 2 * c.parts → xs.getD j 0 = xrep A 0 j :=
    fun j hj => congrFun hvec ⟨j, hj⟩
  rw [hinfv]
  simp only [singleRow, hsolve]
  rw [pureRow_eq]
  simp only [rowEval]
  refine congrArg Except.ok (List.map_congr_left ?_)
  intro re hre
  obtain ⟨hgt, hle⟩ := hrad re hre
  have hgetn : c.R_part.getD c.parts ERad.inf = ERad.inf := hRn
  have hfalse : (fun R => decide (R < ERad.val re))
      (c.R_part.getD c.parts ERad.inf) = false := by
    rw [hgetn]
    simp only [decide_eq_false_iff_not]
    exact ERad.not_inf_lt
  have hcnt := @countP_lt_length_of_false c.R_part
    (fun R => decide (R < ERad.val re)) c.parts
    (show c.parts < c.R_part.length from by omega) hfalse
  have hpos : c.pos re < c.parts := by
    rw [MCtx.pos]
    rw [hlen] at hcnt
    omega
  have hXa : pureX c se (2 * c.pos re) = A := by
    have h1 : pureX c se (2 * c.pos re) =
        (if 2 * c.pos re < 2 * c.parts then xs.getD (2 * c.pos re) 0
         else 0) := by
      rw [hX]
    rw [h1, if_pos (by omega), hxs _ (by omega)]
    exact xrep_even A 0 _ (by omega)
  have hXb : pureX c se (2 * c.pos re + 1) = 0 := by
    have h1 : pureX c se (2 * c.pos re + 1) =
        (if 2 * c.pos re + 1 < 2 * c.parts then
          xs.getD (2 * c.pos re + 1) 0
         else 0) := by
      rw [hX]
    rw [h1, if_pos (by omega), hxs _ (by omega)]
    exact xrep_odd A 0 _ (by omega)
  have hCsp : c.Cs se (c.pos re) =
      c.env.sqrt se * c.env.sqrt (S0 / K0) := by
    rw [MCtx.Cs, hdif _ hpos]
  simp only [headAt]
  rw [hXa, hXb, if_neg hcA, zero_mul, ite_self, hCsp,
    if_pos ERad.val_lt_inf, heqs.2, zero_mul, add_zero]

theorem grf_laplace_single (env : NumEnv) (s rad S_part K_part : List ℚ)
    (R_part : List ERad) (dim lat_ext rate : ℚ) (K_well : Option ℚ)
    (cut_off_prec kw : ℚ) {rows : List (List ℚ)}
    (hkw : resolveKw K_well K_part = some kw)
    (hval : validate rad S_part K_part R_part dim lat_ext kw = none)
    (hparts : K_part.length = 1)
    (hrows : mapRows (fun se => singleRow env (1 - dim / 2)
      (R_part.headD (ERad.val 0)) (R_part.getLastD ERad.inf)
      (env.sqrt (S_part.getD 0 0 / K_part.getD 0 0)) rad
      (QsOf env (1 - dim / 2) (env.sqrt (S_part.getD 0 0 / K_part.getD 0 0))
        (R_part.headD (ERad.val 0)) se) se) s = .ok rows) :
    grf_laplace env s rad S_part K_part R_part dim lat_ext rate K_well
      cut_off_prec =
    .ok (scaleRes (rate / (kw * env.sphSurf dim * env.rpow lat_ext (3 - dim)))
      rows) := by
  simp only [grf_laplace, hkw, hval, if_pos hparts, hrows]

/-- The multi-disk context of a stack of `n` identical disks. -/
def C5ctx (env : NumEnv) (n : ℕ) (K0 S0 : ℚ) (R_part : List ERad)
    (dim cut : ℚ) (rad : List ℚ) : MCtx :=
  ⟨env, 1 - dim / 2, n, R_part, List.replicate n K0,
    List.replicate n S0, cut, rad⟩

/-- C5: homogeneity collapse.  For N >= 2 identical disks (same K0 > 0 and
    S0, shared by every disk), finite or infinite outer boundary alike, a
    valid call of `grf_laplace` returns exactly the matrix of the
    single-disk call with `K_part = [K0]`, `S_part = [S0]`,
    `R_part = [R_0, R_N]`, provided the abstract numerics behave as the
    sources assume per transform variable: the conditioning guard keeps
    all disks, the pentapy solution solves the (nonsingular) banded
    system, the single-disk 2x2 solve succeeds, the first coefficient is
    not masked by the cut-off, and, for a finite outer boundary, neither
    is the second (with `R_N = np.inf` the second coefficient is forced
    to zero on both paths, so no condition on it is needed). -/
theorem claim_C5 (env : NumEnv) (s rad : List ℚ) (n : ℕ) (K0 S0 : ℚ)
    (R_part : List ERad) (dim lat_ext rate cut_off_prec kw : ℚ)
    (K_well : Option ℚ)
    (hn : 2 ≤ n)
    (hkw : resolveKw K_well (List.replicate n K0) = some kw)
    (hval : validate rad (List.replicate n S0) (List.replicate n K0) R_part
      dim lat_ext kw = none)
    (hd : env.sqrt (S0 / K0) ≠ 0)
    (hK0 : K0 ≠ 0)
    (hnum : ∀ se ∈ s,
      pureFirst (C5ctx env n K0 S0 R_part dim cut_off_prec rad) se = n ∧
      ∃ A B xs,
        solve2
          (singleM env (1 - dim / 2) (R_part.headD (ERad.val 0))
            (R_part.getLastD ERad.inf)
            (env.sqrt se * env.sqrt (S0 / K0))).1
          (singleM env (1 - dim / 2) (R_part.headD (ERad.val 0))
            (R_part.getLastD ERad.inf)
            (env.sqrt se * env.sqrt (S0 / K0))).2.1
          (singleM env (1 - dim / 2) (R_part.headD (ERad.val 0))
            (R_part.getLastD ERad.inf)
            (env.sqrt se * env.sqrt (S0 / K0))).2.2.1
          (singleM env (1 - dim / 2) (R_part.headD (ERad.val 0))
            (R_part.getLastD ERad.inf)
            (env.sqrt se * env.sqrt (S0 / K0))).2.2.2
          (QsOf env (1 - dim / 2) (env.sqrt (S0 / K0))
            (R_part.headD (ERad.val 0)) se) 0 = some (A, B) ∧
        ¬(|A| < cut_off_prec) ∧
        (R_part.getLastD ERad.inf < ERad.inf → ¬(|B| < cut_off_prec)) ∧
        env.psolve
          (bandRows (pureMb (C5ctx env n K0 S0 R_part dim cut_off_prec rad)
            se) (2 * n))
          ((List.range (2 * n)).map
            (pureV (C5ctx env n K0 S0 R_part dim cut_off_prec rad) se)) =
          some xs ∧
        (denseOf (pureMb (C5ctx env n K0 S0 R_part dim cut_off_prec rad) se)
          (2 * n)).mulVec (fun j => xs.getD (j : ℕ) 0) =
          (fun j : Fin (2 * n) =>
            pureV (C5ctx env n K0 S0 R_part dim cut_off_prec rad) se
              (j : ℕ)) ∧
        (denseOf (pureMb (C5ctx env n K0 S0 R_part dim cut_off_prec rad) se)
          (2 * n)).det ≠ 0) :
    grf_laplace env s rad (List.replicate n S0) (List.replicate n K0)
      R_part dim lat_ext rate K_well cut_off_prec =
    grf_laplace env s rad [S0] [K0]
      [R_part.headD (ERad.val 0), R_part.getLastD ERad.inf] dim lat_ext
      rate K_well cut_off_prec := by
  have hlenR : R_part.length = n + 1 := by
    have h1 := (validate_none_facts hval).1.1
    rw [List.length_replicate] at h1
    omega
  have hsorted := (validate_none_facts hval).2
  have hradf := validate_none_rad hval
  have hkw1 : resolveKw K_well [K0] = some kw := by
    cases K_well with
    | some k => simpa [resolveKw] using hkw
    | none =>
      obtain ⟨m, hm⟩ : ∃ m, n = m + 1 := ⟨n - 1, by omega⟩
      rw [hm, List.replicate_succ] at hkw
      simpa [resolveKw] using hkw
  have hval1 : validate rad [S0] [K0]
      [R_part.headD (ERad.val 0), R_part.getLastD ERad.inf] dim lat_ext kw
      = none :=
    validate_single_of_multi rfl rfl (by omega) hlenR hval
  rw [grf_laplace_multi env s rad (List.replicate n S0)
    (List.replicate n K0) R_part dim lat_ext rate K_well cut_off_prec kw
    hkw hval (by rw [List.length_replicate]; omega)]
  have hmap : mapRows (fun se => singleRow env (1 - dim / 2)
      (R_part.headD (ERad.val 0)) (R_part.getLastD ERad.inf)
      (env.sqrt (([S0] : List ℚ).getD 0 0 / ([K0] : List ℚ).getD 0 0)) rad
      (QsOf env (1 - dim / 2)
        (env.sqrt (([S0] : List ℚ).getD 0 0 / ([K0] : List ℚ).getD 0 0))
        (R_part.headD (ERad.val 0)) se) se) s =
      .ok (s.map (pureRow (C5ctx env n K0 S0 R_part dim cut_off_prec
        rad))) := by
    refine mapRows_all_ok ?_
    intro se hse
    obtain ⟨hfirst, A, B, xs, hsolve, hcA, hcB, hps, hsound, hdet⟩ :=
      hnum se hse
    obtain ⟨RNv, hfin2⟩ | hfin2 :
        (∃ RNv, R_part.getLastD ERad.inf = ERad.val RNv) ∨
          R_part.getLastD ERad.inf = ERad.inf := by
      cases hlast : R_part.getLastD ERad.inf with
      | val q => exact Or.inl ⟨q, rfl⟩
      | inf => exact Or.inr rfl
    · exact C5_row_eq (C5ctx env n K0 S0 R_part dim cut_off_prec rad) se
        K0 S0 RNv A B xs hn rfl rfl hlenR hfin2 hradf hd hK0 hfirst hsolve
        hcA (hcB (by rw [hfin2]; exact ERad.val_lt_inf)) hps hsound hdet
    · exact C5_row_eq_inf (C5ctx env n K0 S0 R_part dim cut_off_prec rad)
        se K0 S0 A B xs hn rfl rfl hlenR hfin2 hradf hd hK0 hfirst hsolve
        hcA hps hsound hdet
  rw [grf_laplace_single env s rad [S0] [K0]
    [R_part.headD (ERad.val 0), R_part.getLastD ERad.inf] dim lat_ext rate
    K_well cut_off_prec kw hkw1 hval1 rfl hmap]
  rw [List.length_replicate]
  rfl

/-- Concrete abstract-numerics environment for the C5 witness: constant
    square roots and powers, order-dependent Bessel stubs, and a banded
    solver returning the repeated single-disk pair. -/
def env5 : NumEnv :=
  ⟨fun _ => 1, fun _ _ => 1,
   fun v _ => if v = 0 then 1 else 2,
   fun v _ => if v = 0 then 1 else 3,
   fun _ => 1, fun _ => 1,
   fun _ _ => some [1 / 5, -(1 / 5), 1 / 5, -(1 / 5)]⟩

/-- The witness context: two identical disks over `env5`. -/
def c5w : MCtx :=
  C5ctx env5 2 1 1 [ERad.val 1, ERad.val 2, ERad.val 4] 2 (1 / 1000000) [2]

set_option maxHeartbeats 6400000 in
/-- Witness for C5: two identical unit disks over `env5` with boundaries
    `[1, 2, 4]` collapse to the single disk with boundaries `[1, 4]`. -/
theorem claim_C5_witness :
    grf_laplace env5 [1] [2] (List.replicate 2 1) (List.replicate 2 1)
      [ERad.val 1, ERad.val 2, ERad.val 4] 2 1 1 (some 1) (1 / 1000000) =
    grf_laplace env5 [1] [2] [1] [1]
      [[ERad.val 1, ERad.val 2, ERad.val 4].headD (ERad.val 0),
        [ERad.val 1, ERad.val 2, ERad.val 4].getLastD ERad.inf] 2 1 1
      (some 1) (1 / 1000000) := by
  refine claim_C5 env5 [1] [2] 2 1 1
    [ERad.val 1, ERad.val 2, ERad.val 4] 2 1 1 (1 / 1000000) 1 (some 1)
    (by omega) rfl (by decide) (by decide) (by decide) ?_
  intro se hse
  have hse1 : se = 1 := by simpa using hse
  subst hse1
  have hrg1 : List.range 1 = [0] := rfl
  have hrg4 : List.range 4 = [0, 1, 2, 3] := rfl
  have hrg5 : List.range 5 = [0, 1, 2, 3, 4] := rfl
  have e00 : pureMb c5w 1 0 0 = 0 := by
    norm_num [pureMb, assembleM, allWrites, loopWrites, boundaryWrites,
      applyWrites, mset, MInit, c5w, C5ctx, MCtx.difsr, MCtx.Kfrac,
      MCtx.tmp, MCtx.R, MCtx.Rq, MCtx.Cs, kv0, kv1, iv0, iv1, env5,
      ERad.q, hrg1]
  have e01 : pureMb c5w 1 0 1 = 0 := by
    norm_num [pureMb, assembleM, allWrites, loopWrites, boundaryWrites,
      applyWrites, mset, MInit, c5w, C5ctx, MCtx.difsr, MCtx.Kfrac,
      MCtx.tmp, MCtx.R, MCtx.Rq, MCtx.Cs, kv0, kv1, iv0, iv1, env5,
      ERad.q, hrg1]
  have e02 : pureMb c5w 1 0 2 = 0 := by
    norm_num [pureMb, assembleM, allWrites, loopWrites, boundaryWrites,
      applyWrites, mset, MInit, c5w, C5ctx, MCtx.difsr, MCtx.Kfrac,
      MCtx.tmp, MCtx.R, MCtx.Rq, MCtx.Cs, kv0, kv1, iv0, iv1, env5,
      ERad.q, hrg1]
  have e03 : pureMb c5w 1 0 3 = -1 := by
    norm_num [pureMb, assembleM, allWrites, loopWrites, boundaryWrites,
      applyWrites, mset, MInit, c5w, C5ctx, MCtx.difsr, MCtx.Kfrac,
      MCtx.tmp, MCtx.R, MCtx.Rq, MCtx.Cs, kv0, kv1, iv0, iv1, env5,
      ERad.q, hrg1]
  have e10 : pureMb c5w 1 1 0 = 0 := by
    norm_num [pureMb, assembleM, allWrites, loopWrites, boundaryWrites,
      applyWrites, mset, MInit, c5w, C5ctx, MCtx.difsr, MCtx.Kfrac,
      MCtx.tmp, MCtx.R, MCtx.Rq, MCtx.Cs, kv0, kv1, iv0, iv1, env5,
      ERad.q, hrg1]
  have e11 : pureMb c5w 1 1 1 = 3 := by
    norm_num [pureMb, assembleM, allWrites, loopWrites, boundaryWrites,
      applyWrites, mset, MInit, c5w, C5ctx, MCtx.difsr, MCtx.Kfrac,
      MCtx.tmp, MCtx.R, MCtx.Rq, MCtx.Cs, kv0, kv1, iv0, iv1, env5,
      ERad.q, hrg1]
  have e12 : pureMb c5w 1 1 2 = -1 := by
    norm_num [pureMb, assembleM, allWrites, loopWrites, boundaryWrites,
      applyWrites, mset, MInit, c5w, C5ctx, MCtx.difsr, MCtx.Kfrac,
      MCtx.tmp, MCtx.R, MCtx.Rq, MCtx.Cs, kv0, kv1, iv0, iv1, env5,
      ERad.q, hrg1]
  have e13 : pureMb c5w 1 1 3 = -3 := by
    norm_num [pureMb, assembleM, allWrites, loopWrites, boundaryWrites,
      applyWrites, mset, MInit, c5w, C5ctx, MCtx.difsr, MCtx.Kfrac,
      MCtx.tmp, MCtx.R, MCtx.Rq, MCtx.Cs, kv0, kv1, iv0, iv1, env5,
      ERad.q, hrg1]
  have e20 : pureMb c5w 1 2 0 = -2 := by
    norm_num [pureMb, assembleM, allWrites, loopWrites, boundaryWrites,
      applyWrites, mset, MInit, c5w, C5ctx, MCtx.difsr, MCtx.Kfrac,
      MCtx.tmp, MCtx.R, MCtx.Rq, MCtx.Cs, kv0, kv1, iv0, iv1, env5,
      ERad.q, hrg1]
  have e21 : pureMb c5w 1 2 1 = 1 := by
    norm_num [pureMb, assembleM, allWrites, loopWrites, boundaryWrites,
      applyWrites, mset, MInit, c5w, C5ctx, MCtx.difsr, MCtx.Kfrac,
      MCtx.tmp, MCtx.R, MCtx.Rq, MCtx.Cs, kv0, kv1, iv0, iv1, env5,
      ERad.q, hrg1]
  have e22 : pureMb c5w 1 2 2 = 2 := by
    norm_num [pureMb, assembleM, allWrites, loopWrites, boundaryWrites,
      applyWrites, mset, MInit, c5w, C5ctx, MCtx.difsr, MCtx.Kfrac,
      MCtx.tmp, MCtx.R, MCtx.Rq, MCtx.Cs, kv0, kv1, iv0, iv1, env5,
      ERad.q, hrg1]
  have e23 : pureMb c5w 1 2 3 = 1 := by
    norm_num [pureMb, assembleM, allWrites, loopWrites, boundaryWrites,
      applyWrites, mset, MInit, c5w, C5ctx, MCtx.difsr, MCtx.Kfrac,
      MCtx.tmp, MCtx.R, MCtx.Rq, MCtx.Cs, kv0, kv1, iv0, iv1, env5,
      ERad.q, hrg1]
  have e30 : pureMb c5w 1 3 0 = 1 := by
    norm_num [pureMb, assembleM, allWrites, loopWrites, boundaryWrites,
      applyWrites, mset, MInit, c5w, C5ctx, MCtx.difsr, MCtx.Kfrac,
      MCtx.tmp, MCtx.R, MCtx.Rq, MCtx.Cs, kv0, kv1, iv0, iv1, env5,
      ERad.q, hrg1]
  have e31 : pureMb c5w 1 3 1 = 3 := by
    norm_num [pureMb, assembleM, allWrites, loopWrites, boundaryWrites,
      applyWrites, mset, MInit, c5w, C5ctx, MCtx.difsr, MCtx.Kfrac,
      MCtx.tmp, MCtx.R, MCtx.Rq, MCtx.Cs, kv0, kv1, iv0, iv1, env5,
      ERad.q, hrg1]
  have e32 : pureMb c5w 1 3 2 = 1 := by
    norm_num [pureMb, assembleM, allWrites, loopWrites, boundaryWrites,
      applyWrites, mset, MInit, c5w, C5ctx, MCtx.difsr, MCtx.Kfrac,
      MCtx.tmp, MCtx.R, MCtx.Rq, MCtx.Cs, kv0, kv1, iv0, iv1, env5,
      ERad.q, hrg1]
  have e33 : pureMb c5w 1 3 3 = 0 := by
    norm_num [pureMb, assembleM, allWrites, loopWrites, boundaryWrites,
      applyWrites, mset, MInit, c5w, C5ctx, MCtx.difsr, MCtx.Kfrac,
      MCtx.tmp, MCtx.R, MCtx.Rq, MCtx.Cs, kv0, kv1, iv0, iv1, env5,
      ERad.q, hrg1]
  have e40 : pureMb c5w 1 4 0 = -2 := by
    norm_num [pureMb, assembleM, allWrites, loopWrites, boundaryWrites,
      applyWrites, mset, MInit, c5w, C5ctx, MCtx.difsr, MCtx.Kfrac,
      MCtx.tmp, MCtx.R, MCtx.Rq, MCtx.Cs, kv0, kv1, iv0, iv1, env5,
      ERad.q, hrg1]
  have e41 : pureMb c5w 1 4 1 = 0 := by
    norm_num [pureMb, assembleM, allWrites, loopWrites, boundaryWrites,
      applyWrites, mset, MInit, c5w, C5ctx, MCtx.difsr, MCtx.Kfrac,
      MCtx.tmp, MCtx.R, MCtx.Rq, MCtx.Cs, kv0, kv1, iv0, iv1, env5,
      ERad.q, hrg1]
  have e42 : pureMb c5w 1 4 2 = 0 := by
    norm_num [pureMb, assembleM, allWrites, loopWrites, boundaryWrites,
      applyWrites, mset, MInit, c5w, C5ctx, MCtx.difsr, MCtx.Kfrac,
      MCtx.tmp, MCtx.R, MCtx.Rq, MCtx.Cs, kv0, kv1, iv0, iv1, env5,
      ERad.q, hrg1]
  have e43 : pureMb c5w 1 4 3 = 0 := by
    norm_num [pureMb, assembleM, allWrites, loopWrites, boundaryWrites,
      applyWrites, mset, MInit, c5w, C5ctx, MCtx.difsr, MCtx.Kfrac,
      MCtx.tmp, MCtx.R, MCtx.Rq, MCtx.Cs, kv0, kv1, iv0, iv1, env5,
      ERad.q, hrg1]
  have pv0 : pureV c5w 1 0 = -1 := by
    norm_num [pureV, vset, QsOf, c5w, C5ctx, MCtx.difsr, MCtx.R, env5, ERad.q]
  have pv1 : pureV c5w 1 1 = 0 := by
    norm_num [pureV, vset, QsOf, c5w, C5ctx, MCtx.difsr, MCtx.R, env5, ERad.q]
  have pv2 : pureV c5w 1 2 = 0 := by
    norm_num [pureV, vset, QsOf, c5w, C5ctx, MCtx.difsr, MCtx.R, env5, ERad.q]
  have pv3 : pureV c5w 1 3 = 0 := by
    norm_num [pureV, vset, QsOf, c5w, C5ctx, MCtx.difsr, MCtx.R, env5, ERad.q]
  have hcut : c5w.cut = 1 / 1000000 := rfl
  have hparts : c5w.parts = 2 := rfl
  have hv0 : ((0 : Fin 4) : ℕ) = 0 := rfl
  have hv1 : ((1 : Fin 4) : ℕ) = 1 := rfl
  have hv2 : ((2 : Fin 4) : ℕ) = 2 := rfl
  have hv3 : ((3 : Fin 4) : ℕ) = 3 := rfl
  refine ⟨?_, 1 / 5, -(1 / 5), [1 / 5, -(1 / 5), 1 / 5, -(1 / 5)],
    ?_, ?_, ?_, ?_, ?_, ?_⟩
  · show pureFirst c5w 1 = 2
    norm_num [pureFirst, firstIdx, colCross, colMax, e00, e01, e02, e03, e10, e11, e12, e13, e20, e21, e22, e23, e30, e31, e32, e33, e40, e41, e42, e43,
      List.find?, abs_eq_max_neg, max_def, hrg4, hrg5, hcut, hparts]
  · norm_num [solve2, singleM, QsOf, kv0, kv1, iv0, iv1, env5, ERad.q]
  · norm_num [abs_eq_max_neg, max_def]
  · intro _
    norm_num [abs_eq_max_neg, max_def]
  · rfl
  · show (denseOf (pureMb c5w 1) 4).mulVec
      (fun j => ([1 / 5, -(1 / 5), 1 / 5, -(1 / 5)] : List ℚ).getD
        (j : ℕ) 0) =
      (fun j : Fin 4 => pureV c5w 1 (j : ℕ))
    funext j
    fin_cases j <;>
      norm_num [Matrix.mulVec, Matrix.dotProduct, Fin.sum_univ_four,
        denseOf, Matrix.of_apply, hv0, hv1, hv2, hv3, e00, e01, e02, e03, e10, e11, e12, e13, e20, e21, e22, e23, e30, e31, e32, e33, e40, e41, e42, e43,
        pv0, pv1, pv2, pv3]
  · show (denseOf (pureMb c5w 1) 4).det ≠ 0
    have hdv : (denseOf (pureMb c5w 1) 4).det = -25 := by
      norm_num [Matrix.det_succ_row_zero, Fin.sum_univ_succ, Fin.succAbove,
        Fin.lt_def, denseOf, Matrix.of_apply, hv0, hv1, hv2, hv3, e00, e01, e02, e03, e10, e11, e12, e13, e20, e21, e22, e23, e30, e31, e32, e33, e40, e41, e42, e43]
    rw [hdv]
    norm_num


end Anaflow
